import Mathlib

/-!
# Verification of the Elastos.ELA.SPV core against its specification

This file gives a shallow embedding, in Lean 4, of the verification and
synchronization core of the Elastos SPV client: the byte codec
(`common/serialization`), the wire-message header (`p2p/msg`), and the
partial-merkle-tree verifier (`bloom`), together with theorems settling the
frozen claims about them.

Conventions of the embedding:
* Go byte slices become `List Nat` with entries below 256; multi-byte
  integers are `Nat` with explicit `% 2 ^ w` where Go's fixed width matters.
* Go `io.Reader`s over an in-memory buffer (`bytes.Reader`) become an input
  `List Nat`; each reading function returns the parsed value together with
  the unconsumed remainder.  A single Go `Read(p)` call on a `bytes.Reader`
  yields `min (len p) (remaining)` bytes and `io.EOF` only when no byte is
  available; the embedding reproduces this, including the zero-padding of
  the untouched tail of the destination buffer.
* Fallible Go functions (returning `error`) become `Except`.
* The hash type of the merkle code (`Uint256`) is kept abstract: a type `α`
  with decidable equality, and `Sha256D` applied to the concatenation of two
  nodes becomes an abstract combining function `sha : α → α → α`.
-/

namespace SPV

/-! ## Little-endian byte helpers

`leBytes k v` is `v` as `k` little-endian bytes (Go's
`binary.LittleEndian.PutUintN`), `leNum` the inverse (`binary.LittleEndian.UintN`,
also `binary.Read` on an unsigned integer field). -/

/-- `v` rendered as `k` little-endian bytes (low byte first). -/
def leBytes (k v : Nat) : List Nat :=
  (List.range k).map fun j => v / 256 ^ j % 256

/-- Little-endian value of a byte list (missing high bytes read as zero,
matching a zero-initialised Go buffer). -/
def leNum (bs : List Nat) : Nat :=
  bs.foldr (fun b acc => b + 256 * acc) 0

theorem leBytes_length (k v : Nat) : (leBytes k v).length = k := by
  simp [leBytes]

theorem leBytes_succ (k v : Nat) :
    leBytes (k + 1) v = v % 256 :: leBytes k (v / 256) := by
  simp only [leBytes, List.range_succ_eq_map, List.map_cons, List.map_map]
  congr 1
  · simp
  apply List.map_congr_left
  intro j _
  simp only [Function.comp_apply, Nat.succ_eq_add_one, pow_succ, pow_zero,
    Nat.div_div_eq_div_mul, Nat.mul_comm (256 ^ j) 256]

theorem leNum_leBytes (k v : Nat) : leNum (leBytes k v) = v % 256 ^ k := by
  induction k generalizing v with
  | zero => simp [leBytes, leNum, Nat.mod_one]
  | succ k ih =>
    rw [leBytes_succ]
    simp only [leNum, List.foldr_cons] at *
    rw [ih (v / 256), pow_succ, Nat.mul_comm (256 ^ k) 256, Nat.mod_mul]

theorem leNum_leBytes_of_lt {k v : Nat} (h : v < 256 ^ k) :
    leNum (leBytes k v) = v := by
  rw [leNum_leBytes, Nat.mod_eq_of_lt h]

theorem leBytes_append_take {k v : Nat} (rest : List Nat) :
    (leBytes k v ++ rest).take k = leBytes k v := by
  rw [List.take_append_of_le_length (by simp [leBytes_length])]
  simp [leBytes_length]

theorem leBytes_append_drop {k v : Nat} (rest : List Nat) :
    (leBytes k v ++ rest).drop k = rest := by
  rw [List.drop_append_of_le_length (by simp [leBytes_length])]
  simp [leBytes_length]

/-! ## `common/serialization` — reading and writing primitives

Error values of the package: `ErrRange` and `ErrEof` are the package's own
errors; `ioEOF` stands for the `io.EOF` value handed through from the
underlying reader (the source frequently returns the reader's error
unchanged, which is `io.EOF`, *not* the package's `ErrEof`). -/

/-- The distinguishable error values reads can produce. -/
inductive RErr
  /-- `io.EOF` propagated from the underlying reader. -/
  | ioEOF
  /-- the package's `ErrEof` ("got EOF, can not get the next byte"). -/
  | errEof
  /-- the package's `ErrRange` ("value out of range"). -/
  | errRange
  deriving DecidableEq, Repr

/-- `func WriteVarUint(writer io.Writer, value uint64) error` — the byte
sequence written (the value is a `uint64`, so callers guarantee
`value < 2 ^ 64`; each branch guard makes the truncating casts
`uint16(value)`/`uint32(value)` exact). -/
def WriteVarUint (value : Nat) : List Nat :=
  if value < 0xFD then [value]
  else if value ≤ 0xFFFF then 0xFD :: leBytes 2 value
  else if value ≤ 0xFFFFFFFF then 0xFE :: leBytes 4 value
  else 0xFF :: leBytes 8 value

/-- The marker dispatch of `ReadVarUint` (everything before the final range
check, which does not depend on `maxint`).  The continuation reads
(`reader.Read(fb[1:3])` …) are single `Read` calls into a zero-initialised
buffer: they fail only when the reader is empty and otherwise decode
whatever bytes were available, the rest of the buffer staying 0 —
`leNum (rest.take k)` reproduces exactly that. -/
def readVarUintCore (src : List Nat) : Except RErr (Nat × List Nat) :=
  match src with
  | [] => .error .ioEOF
  | b0 :: rest =>
    if b0 = 0xFD then
      if rest = [] then .error .ioEOF else .ok (leNum (rest.take 2), rest.drop 2)
    else if b0 = 0xFE then
      if rest = [] then .error .ioEOF else .ok (leNum (rest.take 4), rest.drop 4)
    else if b0 = 0xFF then
      if rest = [] then .error .ioEOF else .ok (leNum (rest.take 8), rest.drop 8)
    else .ok (b0, rest)

/-- `func ReadVarUint(reader io.Reader, maxint uint64) (uint64, error)` —
`maxint = 0` lifts the limit to `math.MaxUint64`; a decoded value above the
limit fails with `ErrRange`. -/
def ReadVarUint (maxint : Nat) (src : List Nat) : Except RErr (Nat × List Nat) :=
  let m := if maxint = 0 then 0xFFFFFFFFFFFFFFFF else maxint
  match readVarUintCore src with
  | .error e => .error e
  | .ok (res, rest') => if res > m then .error .errRange else .ok (res, rest')

/-- `func ReadUint8(reader io.Reader) (uint8, error)` — `ErrEof` iff the
single `Read` returned no byte. -/
def ReadUint8 (src : List Nat) : Except RErr (Nat × List Nat) :=
  if src = [] then .error .errEof else .ok (leNum (src.take 1), src.drop 1)

/-- `func ReadUint16(reader io.Reader) (uint16, error)` — note the width is
*not* checked: one available byte already counts as success, the second
buffer byte reading as 0. -/
def ReadUint16 (src : List Nat) : Except RErr (Nat × List Nat) :=
  if src = [] then .error .errEof else .ok (leNum (src.take 2), src.drop 2)

/-- `func ReadUint32(reader io.Reader) (uint32, error)`. -/
def ReadUint32 (src : List Nat) : Except RErr (Nat × List Nat) :=
  if src = [] then .error .errEof else .ok (leNum (src.take 4), src.drop 4)

/-- `func ReadUint64(reader io.Reader) (uint64, error)`. -/
def ReadUint64 (src : List Nat) : Except RErr (Nat × List Nat) :=
  if src = [] then .error .errEof else .ok (leNum (src.take 8), src.drop 8)

/-- `func byteXReader(reader io.Reader, x uint64) ([]byte, error)` — a single
`Read` into a fresh `x`-byte buffer; if *any* byte arrived the whole
(zero-padded) buffer is returned with a nil error, otherwise the reader's
error (`io.EOF` on an exhausted `bytes.Reader`, even for `x = 0`). -/
def byteXReader (x : Nat) (src : List Nat) : Except RErr (List Nat × List Nat) :=
  if src = [] then .error .ioEOF
  else if x = 0 then .ok ([], src)
  else .ok (src.take x ++ List.replicate (x - src.length) 0, src.drop x)

/-- `func ReadBytes(reader io.Reader, length uint64) ([]byte, error)`. -/
def ReadBytes (length : Nat) (src : List Nat) : Except RErr (List Nat × List Nat) :=
  byteXReader length src

/-- `func WriteVarBytes(writer io.Writer, value []byte) error`. -/
def WriteVarBytes (value : List Nat) : List Nat :=
  WriteVarUint value.length ++ value

/-- `func ReadVarBytes(reader io.Reader) ([]byte, error)`. -/
def ReadVarBytes (src : List Nat) : Except RErr (List Nat × List Nat) :=
  match ReadVarUint 0 src with
  | .error e => .error e
  | .ok (val, rest) => byteXReader val rest

/-! ### Decoding lemmas for the VarUint forms -/

theorem leBytes_two (v : Nat) : leBytes 2 v = [v % 256, v / 256 % 256] := by
  simp [leBytes, List.range_succ]

theorem leBytes_four (v : Nat) :
    leBytes 4 v = [v % 256, v / 256 % 256, v / 256 ^ 2 % 256, v / 256 ^ 3 % 256] := by
  simp [leBytes, List.range_succ]

theorem leBytes_eight (v : Nat) :
    leBytes 8 v = [v % 256, v / 256 % 256, v / 256 ^ 2 % 256, v / 256 ^ 3 % 256,
      v / 256 ^ 4 % 256, v / 256 ^ 5 % 256, v / 256 ^ 6 % 256, v / 256 ^ 7 % 256] := by
  simp [leBytes, List.range_succ]

theorem readVarUintCore_fd (v : Nat) (rest : List Nat) :
    readVarUintCore (0xFD :: (leBytes 2 v ++ rest)) = .ok (v % 2 ^ 16, rest) := by
  rw [leBytes_two]
  show readVarUintCore (0xFD :: v % 256 :: v / 256 % 256 :: rest) = _
  rw [readVarUintCore]
  norm_num [leNum]
  rw [if_neg (List.cons_ne_nil _ _)]
  simp only [Except.ok.injEq, Prod.mk.injEq]
  exact ⟨by omega, trivial⟩

theorem readVarUintCore_fe (v : Nat) (rest : List Nat) :
    readVarUintCore (0xFE :: (leBytes 4 v ++ rest)) = .ok (v % 2 ^ 32, rest) := by
  rw [leBytes_four]
  show readVarUintCore
    (0xFE :: v % 256 :: v / 256 % 256 :: v / 256 ^ 2 % 256 :: v / 256 ^ 3 % 256 :: rest) = _
  rw [readVarUintCore]
  norm_num [leNum]
  rw [if_neg (List.cons_ne_nil _ _)]
  simp only [Except.ok.injEq, Prod.mk.injEq]
  exact ⟨by omega, trivial⟩

theorem readVarUintCore_ff (v : Nat) (rest : List Nat) :
    readVarUintCore (0xFF :: (leBytes 8 v ++ rest)) = .ok (v % 2 ^ 64, rest) := by
  rw [leBytes_eight]
  show readVarUintCore (0xFF :: v % 256 :: v / 256 % 256 :: v / 256 ^ 2 % 256 ::
    v / 256 ^ 3 % 256 :: v / 256 ^ 4 % 256 :: v / 256 ^ 5 % 256 :: v / 256 ^ 6 % 256 ::
    v / 256 ^ 7 % 256 :: rest) = _
  rw [readVarUintCore]
  norm_num [leNum]
  rw [if_neg (List.cons_ne_nil _ _)]
  simp only [Except.ok.injEq, Prod.mk.injEq]
  exact ⟨by omega, trivial⟩

theorem readVarUintCore_small (v : Nat) (hv : v < 0xFD) (rest : List Nat) :
    readVarUintCore (v :: rest) = .ok (v, rest) := by
  rw [readVarUintCore]
  rw [if_neg (by omega), if_neg (by omega), if_neg (by omega)]

theorem readVarUintCore_writeVarUint (v : Nat) (hv : v < 2 ^ 64) (rest : List Nat) :
    readVarUintCore (WriteVarUint v ++ rest) = .ok (v, rest) := by
  rw [WriteVarUint]
  by_cases h1 : v < 0xFD
  · rw [if_pos h1]
    exact readVarUintCore_small v h1 rest
  by_cases h2 : v ≤ 0xFFFF
  · rw [if_neg h1, if_pos h2, List.cons_append, readVarUintCore_fd,
      Nat.mod_eq_of_lt (by omega)]
  by_cases h3 : v ≤ 0xFFFFFFFF
  · rw [if_neg h1, if_neg h2, if_pos h3, List.cons_append, readVarUintCore_fe,
      Nat.mod_eq_of_lt (by omega)]
  · rw [if_neg h1, if_neg h2, if_neg h3, List.cons_append, readVarUintCore_ff,
      Nat.mod_eq_of_lt (by omega)]

/-- When the marker dispatch succeeds, `ReadVarUint` only adds the range
check against the (possibly lifted) limit. -/
theorem ReadVarUint_zero_core_ok {src : List Nat} {v : Nat} {rest : List Nat}
    (h : readVarUintCore src = .ok (v, rest)) :
    ReadVarUint 0 src =
      if v > 0xFFFFFFFFFFFFFFFF then .error .errRange else .ok (v, rest) := by
  rw [ReadVarUint, h]
  rfl

theorem ReadVarUint_pos_core_ok {src : List Nat} {v : Nat} {rest : List Nat} {maxint : Nat}
    (hm : maxint ≠ 0) (h : readVarUintCore src = .ok (v, rest)) :
    ReadVarUint maxint src =
      if v > maxint then .error .errRange else .ok (v, rest) := by
  rw [ReadVarUint, h, if_neg hm]

/-- **C6.** `WriteVarUint` emits exactly the four canonical forms (single
byte below `0xFD`; `0xFD` + 2-byte LE for a value fitting `uint16`;
`0xFE` + 4-byte LE for `uint32`; otherwise `0xFF` + 8-byte LE), and
`ReadVarUint` decodes each emitted form back to the value. -/
theorem c6_writeVarUint_forms_and_readVarUint_roundtrip (v : Nat) (hv : v < 2 ^ 64) :
    (v < 0xFD → WriteVarUint v = [v]) ∧
    (¬ v < 0xFD → v ≤ 0xFFFF → WriteVarUint v = 0xFD :: leBytes 2 v) ∧
    (0xFFFF < v → v ≤ 0xFFFFFFFF → WriteVarUint v = 0xFE :: leBytes 4 v) ∧
    (0xFFFFFFFF < v → WriteVarUint v = 0xFF :: leBytes 8 v) ∧
    (∀ rest, ReadVarUint 0 (WriteVarUint v ++ rest) = .ok (v, rest)) := by
  refine ⟨fun h1 => by rw [WriteVarUint, if_pos h1],
    fun h1 h2 => by rw [WriteVarUint, if_neg h1, if_pos h2],
    fun h1 h2 => by rw [WriteVarUint, if_neg (by omega), if_neg (by omega), if_pos h2],
    fun h1 => by rw [WriteVarUint, if_neg (by omega), if_neg (by omega), if_neg (by omega)],
    fun rest => ?_⟩
  rw [ReadVarUint_zero_core_ok (readVarUintCore_writeVarUint v hv rest)]
  rw [if_neg (by omega)]

/-- Witness for C6 at `v = 3`, `v = 0xFFFE`, and concrete decode. -/
theorem c6_witness :
    WriteVarUint 3 = [3] ∧ WriteVarUint 0xFFFE = [0xFD, 0xFE, 0xFF] ∧
      ReadVarUint 0 (WriteVarUint 0xFFFE ++ [9]) = .ok (0xFFFE, [9]) := by
  refine ⟨(c6_writeVarUint_forms_and_readVarUint_roundtrip 3 (by norm_num)).1 (by norm_num),
    ?_, ((c6_writeVarUint_forms_and_readVarUint_roundtrip 0xFFFE (by norm_num)).2.2.2.2) [9]⟩
  rw [(c6_writeVarUint_forms_and_readVarUint_roundtrip 0xFFFE (by norm_num)).2.1
    (by norm_num) (by norm_num)]
  rw [leBytes_two]

/-- **C7 counterexample.** The value 1 fits a single byte, yet its 3-byte
encoding `FD 01 00` is *accepted* by `ReadVarUint` (decoded to 1 with no
error), so non-canonical encodings are not rejected. -/
theorem c7_counterexample_nonCanonical_accepted :
    ReadVarUint 0 [0xFD, 1, 0] = .ok (1, []) := by rfl

/-- **C7 (amended).** `ReadVarUint` is lenient: every longer-than-necessary
form (a small value behind marker `0xFD`, a `uint16`-sized value behind
`0xFE`, a `uint32`-sized value behind `0xFF`) is accepted and decoded to the
same value, without error. -/
theorem c7_readVarUint_accepts_nonCanonical (v : Nat) (rest : List Nat) :
    (v ≤ 0xFFFF → ReadVarUint 0 (0xFD :: (leBytes 2 v ++ rest)) = .ok (v, rest)) ∧
    (v ≤ 0xFFFFFFFF → ReadVarUint 0 (0xFE :: (leBytes 4 v ++ rest)) = .ok (v, rest)) ∧
    (v < 2 ^ 64 → ReadVarUint 0 (0xFF :: (leBytes 8 v ++ rest)) = .ok (v, rest)) := by
  refine ⟨fun h => ?_, fun h => ?_, fun h => ?_⟩
  · have hc := readVarUintCore_fd v rest
    rw [Nat.mod_eq_of_lt (by omega)] at hc
    rw [ReadVarUint_zero_core_ok hc, if_neg (by omega)]
  · have hc := readVarUintCore_fe v rest
    rw [Nat.mod_eq_of_lt (by omega)] at hc
    rw [ReadVarUint_zero_core_ok hc, if_neg (by omega)]
  · have hc := readVarUintCore_ff v rest
    rw [Nat.mod_eq_of_lt (by omega)] at hc
    rw [ReadVarUint_zero_core_ok hc, if_neg (by omega)]

/-- Witness for C7's amended statement at `v = 1`. -/
theorem c7_amended_witness : ReadVarUint 0 (0xFE :: (leBytes 4 1 ++ [5])) = .ok (1, [5]) :=
  (c7_readVarUint_accepts_nonCanonical 1 [5]).2.1 (by norm_num)

/-- **C8 counterexample.** A reader holding a single byte is shorter than
`ReadUint16`'s two-byte width, yet `ReadUint16` succeeds (the untouched
buffer byte reads as zero) instead of failing with `ErrEof`. -/
theorem c8_counterexample_short_read_succeeds :
    ReadUint16 [7] = .ok (7, []) := by rfl

/-- **C8 (amended).** The fixed-width readers fail with `ErrEof` exactly when
the reader supplies *no* byte at all; with at least one byte available they
succeed, zero-padding the missing tail.  `byteXReader`-based reads
(`ReadBytes`) propagate the reader's `io.EOF` (not `ErrEof`) on an empty
reader.  `ReadVarUint` fails with `ErrRange` exactly when the decoded value
exceeds the caller-supplied `max`, where `max = 0` means no limit. -/
theorem c8_read_primitives_errors (src : List Nat) :
    (ReadUint8 src = .error .errEof ↔ src = []) ∧
    (ReadUint16 src = .error .errEof ↔ src = []) ∧
    (ReadUint32 src = .error .errEof ↔ src = []) ∧
    (ReadUint64 src = .error .errEof ↔ src = []) ∧
    (src ≠ [] → ReadUint16 src = .ok (leNum (src.take 2), src.drop 2)) ∧
    (∀ len, 0 < len → src = [] → ReadBytes len src = .error .ioEOF) ∧
    (∀ maxint v rest, ReadVarUint 0 src = .ok (v, rest) →
      ReadVarUint maxint src =
        if maxint ≠ 0 ∧ maxint < v then .error .errRange else .ok (v, rest)) := by
  refine ⟨?_, ?_, ?_, ?_, ?_, ?_, ?_⟩
  · cases src <;> simp [ReadUint8]
  · cases src <;> simp [ReadUint16]
  · cases src <;> simp [ReadUint32]
  · cases src <;> simp [ReadUint64]
  · intro h
    cases src with
    | nil => exact absurd rfl h
    | cons a l => rfl
  · intro len hlen hsrc
    subst hsrc
    rfl
  · intro maxint v rest h
    match hc : readVarUintCore src with
    | .error e =>
      rw [ReadVarUint, hc] at h
      exact absurd h (by simp)
    | .ok (res, rest') =>
      rw [ReadVarUint_zero_core_ok hc] at h
      by_cases hr : res > 0xFFFFFFFFFFFFFFFF
      · rw [if_pos hr] at h
        exact absurd h (by simp)
      rw [if_neg hr] at h
      have h1 : res = v ∧ rest' = rest := by simpa using h
      rw [← h1.1, ← h1.2]
      by_cases hm : maxint = 0
      · subst hm
        rw [ReadVarUint_zero_core_ok hc]
        simp only [ne_eq, not_true_eq_false, false_and, if_false]
        rw [if_neg hr]
      · rw [ReadVarUint_pos_core_ok hm hc]
        by_cases hv2 : maxint < res
        · rw [if_pos hv2, if_pos ⟨hm, hv2⟩]
        · rw [if_neg hv2, if_neg (by tauto)]

/-! ## Composite codec types: `OutPoint` (core/transaction) and
`FunctionCode` (core/code) -/

theorem WriteVarUint_ne_nil (v : Nat) : WriteVarUint v ≠ [] := by
  unfold WriteVarUint
  split
  · simp
  split
  · simp
  split <;> simp

/-- `WriteVarBytes` followed by `byteXReader` round-trips whenever the
length fits `uint64` and the reader is not left completely empty before the
zero-length final read (`byteXReader` returns the reader's `io.EOF` even
when asked for 0 bytes of an exhausted reader). -/
theorem readVarBytes_writeVarBytes (bs rest : List Nat) (hlen : bs.length < 2 ^ 64)
    (hne : bs ≠ [] ∨ rest ≠ []) :
    ReadVarBytes (WriteVarBytes bs ++ rest) = .ok (bs, rest) := by
  rw [ReadVarBytes, WriteVarBytes, List.append_assoc,
    ReadVarUint_zero_core_ok (readVarUintCore_writeVarUint bs.length hlen (bs ++ rest)),
    if_neg (by omega)]
  show byteXReader bs.length (bs ++ rest) = .ok (bs, rest)
  rw [byteXReader]
  rcases hne with hne | hne
  · rw [if_neg (by simp [hne]), if_neg (by simp [hne])]
    rw [List.take_append_of_le_length le_rfl, List.take_length,
      List.drop_append_of_le_length le_rfl, List.drop_length, List.nil_append]
    have : bs.length + rest.length - bs.length = rest.length := by omega
    simp [List.length_append]
  · by_cases hb : bs = []
    · subst hb
      simp [hne]
    · rw [if_neg (by simp [hb]), if_neg (by simp [hb])]
      rw [List.take_append_of_le_length le_rfl, List.take_length,
        List.drop_append_of_le_length le_rfl, List.drop_length, List.nil_append]
      simp [List.length_append]

/-- `ContractParameterType` is a one-byte enumeration.  Modelled from the
spec: the `core/contract` package is not among the source files; the two
helpers `ContractParameterTypeToByte` / `ByteToContractParameterType` used
by `FunctionCode` cast element-wise between `[]ContractParameterType` and
`[]byte`, so over the byte model they are mutually inverse identities. -/
def ContractParameterTypeToByte (ps : List Nat) : List Nat := ps

/-- Inverse cast, see `ContractParameterTypeToByte`. -/
def ByteToContractParameterType (bs : List Nat) : List Nat := bs

/-- `type FunctionCode struct` (core/code/FunctionCode.go). -/
structure FunctionCode where
  /-- Contract Code -/
  Code : List Nat
  /-- Contract parameter type list -/
  ParameterTypes : List Nat
  /-- Contract return type list -/
  ReturnTypes : List Nat
  deriving DecidableEq, Repr

/-- `func (fc *FunctionCode) Serialize(w io.Writer) error` — writes
`ParameterTypes` and `Code` as VarBytes; `ReturnTypes` is never written. -/
def FunctionCode.serialize (fc : FunctionCode) : List Nat :=
  WriteVarBytes (ContractParameterTypeToByte fc.ParameterTypes) ++ WriteVarBytes fc.Code

/-- `func (fc *FunctionCode) Deserialize(r io.Reader) error` — reads
`ParameterTypes` and `Code`; the `ReturnTypes` field of the fresh receiver
(`new(FunctionCode)`) is never assigned and stays at its zero value `nil`. -/
def FunctionCode.deserialize (src : List Nat) : Except RErr (FunctionCode × List Nat) :=
  match ReadVarBytes src with
  | .error e => .error e
  | .ok (p, rest) =>
    match ReadVarBytes rest with
    | .error e => .error e
    | .ok (c, rest') =>
      .ok ({ Code := c, ParameterTypes := ByteToContractParameterType p,
             ReturnTypes := [] }, rest')

/-- `type OutPoint struct { TxID Uint256; Index uint16 }` (core/transaction). -/
structure OutPoint where
  TxID : List Nat
  Index : Nat
  deriving DecidableEq, Repr

/-- `func (op *OutPoint) Serialize(w io.Writer) error` — `WriteElements`
writes the `Uint256` and then the `uint16` index little-endian.  Modelled
from the spec for the missing `common` package: `Hash256` is a fixed
32-byte value whose serialization is its raw bytes. -/
def OutPoint.serialize (op : OutPoint) : List Nat :=
  op.TxID ++ leBytes 2 op.Index

/-- `func (op *OutPoint) Deserialize(r io.Reader) error` — `ReadElements`
reads the 32-byte `Uint256` (modelled from the spec: an exact 32-byte read)
and then `binary.Read` of a `uint16`, which needs 2 further bytes. -/
def OutPoint.deserialize (src : List Nat) : Except RErr (OutPoint × List Nat) :=
  if 32 ≤ src.length then
    if 2 ≤ (src.drop 32).length then
      .ok (⟨src.take 32, leNum ((src.drop 32).take 2)⟩, (src.drop 32).drop 2)
    else .error .ioEOF
  else .error .ioEOF

/-- **C4 counterexample.** A `FunctionCode` with a non-empty `ReturnTypes`
does not round-trip: `Serialize` never writes `ReturnTypes`, and
`Deserialize` leaves it at `nil`, so the reconstructed value differs from
the original in that field. -/
theorem c4_counterexample_functionCode_returnTypes_lost :
    FunctionCode.deserialize (FunctionCode.serialize ⟨[1], [], [2]⟩) ≠
      .ok (⟨[1], [], [2]⟩, []) := by
  intro h
  rw [show FunctionCode.deserialize (FunctionCode.serialize ⟨[1], [], [2]⟩) =
      .ok (⟨[1], [], []⟩, []) from rfl] at h
  simp at h

/-- **C4 (amended).** `OutPoint` round-trips exactly in all fields; for
`FunctionCode`, `ParameterTypes` and `Code` round-trip but the deserialized
value's `ReturnTypes` is always empty, since `Serialize` omits the field. -/
theorem c4_codec_roundtrip (op : OutPoint) (fc : FunctionCode) (rest : List Nat)
    (htx : op.TxID.length = 32) (hidx : op.Index < 2 ^ 16)
    (hp : fc.ParameterTypes.length < 2 ^ 64) (hc : fc.Code.length < 2 ^ 64)
    (hcr : fc.Code ≠ [] ∨ rest ≠ []) :
    OutPoint.deserialize (op.serialize ++ rest) = .ok (op, rest) ∧
    FunctionCode.deserialize (fc.serialize ++ rest) =
      .ok ({ fc with ReturnTypes := [] }, rest) := by
  constructor
  · rw [OutPoint.deserialize, OutPoint.serialize]
    have hd : ((op.TxID ++ leBytes 2 op.Index) ++ rest).drop 32 = leBytes 2 op.Index ++ rest := by
      rw [List.append_assoc, List.drop_append_of_le_length (by omega)]
      simp [htx]
    rw [if_pos (by simp [List.length_append, htx]), hd, if_pos (by simp [leBytes_length])]
    rw [leBytes_append_take, leBytes_append_drop, leNum_leBytes_of_lt (by omega)]
    have ht : ((op.TxID ++ leBytes 2 op.Index) ++ rest).take 32 = op.TxID := by
      rw [List.append_assoc, List.take_append_of_le_length (by omega), ← htx,
        List.take_length]
    rw [ht]
  · have h1 := readVarBytes_writeVarBytes fc.ParameterTypes (WriteVarBytes fc.Code ++ rest)
      hp (Or.inr (by simp [WriteVarBytes, WriteVarUint_ne_nil]))
    have h2 := readVarBytes_writeVarBytes fc.Code rest hc hcr
    simp only [FunctionCode.serialize, FunctionCode.deserialize, ContractParameterTypeToByte,
      ByteToContractParameterType, List.append_assoc, h1, h2]

/-- Witness for C4's amended statement on a concrete outpoint and code. -/
theorem c4_witness :
    OutPoint.deserialize (OutPoint.serialize ⟨List.replicate 32 7, 5⟩ ++ [1, 2]) =
      .ok (⟨List.replicate 32 7, 5⟩, [1, 2]) ∧
    FunctionCode.deserialize (FunctionCode.serialize ⟨[9], [3], [4]⟩ ++ []) =
      .ok (⟨[9], [3], []⟩, []) :=
  ⟨(c4_codec_roundtrip ⟨List.replicate 32 7, 5⟩ ⟨[9], [3], [4]⟩ [1, 2]
      (by simp) (by norm_num) (by norm_num) (by norm_num) (by simp)).1,
    (c4_codec_roundtrip ⟨List.replicate 32 7, 5⟩ ⟨[9], [3], [4]⟩ []
      (by simp) (by norm_num) (by norm_num) (by norm_num) (by simp)).2⟩

/-! ## `p2p/msg` — the framed message header

`Header` = 4-byte magic, 12-byte NUL-padded command, 4-byte little-endian
body length, 4-byte checksum.  The configured network magic
(`config.Config().Magic`) and `core.Sha256D` live outside the sampled
sources, so they are passed in as parameters `configMagic` and `sha256d`. -/

/-- `CMDLEN = 12`. -/
def CMDLEN : Nat := 12

/-- `CMDOFFSET = 4`. -/
def CMDOFFSET : Nat := 4

/-- `CHECKSUMLEN = 4`. -/
def CHECKSUMLEN : Nat := 4

/-- `HEADERLEN = 24`. -/
def HEADERLEN : Nat := 24

/-- `type Header struct` (p2p/msg). -/
structure Header where
  Magic : Nat
  /-- 12 bytes. -/
  CMD : List Nat
  Length : Nat
  /-- 4 bytes. -/
  Checksum : List Nat
  deriving DecidableEq, Repr

/-- `func NewHeader(cmd string, checksum []byte, length int) *Header` —
`copy(header.CMD[:len(cmd)], cmd)` writes the command over a zeroed 12-byte
array (callers pass commands of at most 12 bytes; longer would make the Go
slice expression panic), `copy(header.Checksum[:], checksum[:4])` takes the
first 4 checksum bytes, and `uint32(length)` truncates the length. -/
def NewHeader (configMagic : Nat) (cmd checksum : List Nat) (length : Nat) : Header :=
  { Magic := configMagic
    CMD := (cmd ++ List.replicate (CMDLEN - cmd.length) 0).take CMDLEN
    Length := length % 2 ^ 32
    Checksum := checksum.take CHECKSUMLEN }

/-- `func (header *Header) Verify(buf []byte) error` — magic equality, then
checksum = first 4 bytes of `Sha256D(buf)`.  (The Go checksum message is
built with a malformed `$s` verb; the exact error text is not modelled.)
Nothing else — in particular no body-length cap — is checked. -/
def Header.Verify (configMagic : Nat) (sha256d : List Nat → List Nat)
    (header : Header) (buf : List Nat) : Except String Unit :=
  if header.Magic ≠ configMagic then
    .error ("Unmatched magic number " ++ toString header.Magic)
  else if header.Checksum ≠ (sha256d buf).take CHECKSUMLEN then
    .error "Unmatched checksum"
  else .ok ()

/-- `func (header *Header) Deserialize(buf []byte) error` — checks only that
`buf[4:16]` contains a NUL (`bytes.IndexByte`; the `end >= CMDLEN` half of
the Go condition can never hold), then `binary.Read` fills the four fields
from `buf[:24]`.  Accessing a `buf` shorter than the slice bounds panics in
Go; that is rendered as a distinguished error. -/
def Header.Deserialize (buf : List Nat) : Except String Header :=
  if buf.length < HEADERLEN then .error "PANIC: slice bounds out of range"
  else
    match ((buf.drop CMDOFFSET).take CMDLEN).indexOf? 0 with
    | none => .error "Unexpected length of CMD"
    | some _ =>
      .ok { Magic := leNum (buf.take 4), CMD := (buf.drop CMDOFFSET).take CMDLEN,
            Length := leNum ((buf.drop 16).take 4), Checksum := (buf.drop 20).take 4 }

/-- `func (header *Header) GetCMD() string` — the bytes before the first NUL
(Go `string` is a byte sequence).  When `CMD` holds no NUL, `IndexByte`
returns `-1` and `header.CMD[:end]` panics with a slice bound error; the
panic is rendered as `none`. -/
def Header.GetCMD (header : Header) : Option (List Nat) :=
  match header.CMD.indexOf? 0 with
  | none => none
  | some e => some (header.CMD.take e)

theorem getCMD_of_none {hdr : Header} (hi : hdr.CMD.indexOf? 0 = none) :
    hdr.GetCMD = none := by
  rw [Header.GetCMD, hi]

theorem getCMD_of_some {hdr : Header} {e : Nat} (hi : hdr.CMD.indexOf? 0 = some e) :
    hdr.GetCMD = some (hdr.CMD.take e) := by
  rw [Header.GetCMD, hi]

/-- Characterisation of `List.indexOf? 0` on byte lists: `none` iff no NUL
occurs, and `some e` locates the first NUL. -/
theorem indexOf?_zero_spec (l : List Nat) :
    (l.indexOf? 0 = none ↔ 0 ∉ l) ∧
    (∀ e, l.indexOf? 0 = some e →
      ∃ pre post, l = pre ++ 0 :: post ∧ 0 ∉ pre ∧ pre.length = e) := by
  induction l with
  | nil => simp
  | cons x xs ih =>
    by_cases hx : x = 0
    · subst hx
      rw [List.indexOf?_cons]
      simp only [beq_self_eq_true, if_true]
      constructor
      · simp
      · intro e he
        obtain rfl : (0 : Nat) = e := by simpa using he
        exact ⟨[], xs, rfl, by simp, rfl⟩
    · rw [List.indexOf?_cons]
      have hbeq : (x == 0) = false := by simpa using hx
      rw [hbeq]
      simp only [Bool.false_eq_true, if_false]
      constructor
      · rw [Option.map_eq_none']
        rw [ih.1]
        simp only [List.mem_cons, not_or]
        constructor
        · intro h
          exact ⟨fun h0 => hx h0.symm, h⟩
        · intro h
          exact h.2
      · intro e he
        rw [Option.map_eq_some'] at he
        obtain ⟨a, ha, rfl⟩ := he
        obtain ⟨pre, post, hl, hpre, hlen⟩ := ih.2 a ha
        refine ⟨x :: pre, post, by rw [hl, List.cons_append], ?_, by simp [hlen]⟩
        simp only [List.mem_cons, not_or]
        exact ⟨fun h0 => hx h0.symm, hpre⟩

/-- **C10.** `Header.GetCMD` is total exactly on headers whose `CMD` contains
a NUL, where it returns the bytes before the first NUL; on a NUL-free `CMD`
(as `NewHeader` produces for a 12-byte command of non-NUL bytes) it hits the
Go slice-out-of-range panic (`none`); and a header produced by
`Header.Deserialize` — whose NUL check has passed — never panics in
`GetCMD`. -/
theorem c10_getCMD_partiality (hdr : Header) (magic : Nat) (cmd cks buf : List Nat)
    (len : Nat) :
    (hdr.GetCMD = none ↔ 0 ∉ hdr.CMD) ∧
    (0 ∈ hdr.CMD →
      ∃ pre post, hdr.CMD = pre ++ 0 :: post ∧ 0 ∉ pre ∧ hdr.GetCMD = some pre) ∧
    (cmd.length = CMDLEN → 0 ∉ cmd → (NewHeader magic cmd cks len).GetCMD = none) ∧
    (∀ h2, Header.Deserialize buf = .ok h2 → h2.GetCMD ≠ none) := by
  have spec := indexOf?_zero_spec
  refine ⟨?_, ?_, ?_, ?_⟩
  · cases hi : hdr.CMD.indexOf? 0 with
    | none =>
      rw [getCMD_of_none hi]
      simpa using (spec hdr.CMD).1.mp hi
    | some e =>
      rw [getCMD_of_some hi]
      obtain ⟨pre, post, hl, -, -⟩ := (spec hdr.CMD).2 e hi
      constructor
      · intro h
        exact absurd h (by simp)
      · intro h
        rw [hl] at h
        exact absurd h (by simp)
  · intro hmem
    cases hi : hdr.CMD.indexOf? 0 with
    | none => exact absurd hmem ((spec hdr.CMD).1.mp hi)
    | some e =>
      obtain ⟨pre, post, hl, hpre, hlen⟩ := (spec hdr.CMD).2 e hi
      refine ⟨pre, post, hl, hpre, ?_⟩
      rw [getCMD_of_some hi, hl, ← hlen,
        List.take_append_of_le_length le_rfl, List.take_length]
  · intro hlen hmem
    have hcmd : (NewHeader magic cmd cks len).CMD = cmd := by
      rw [NewHeader]
      simp [hlen, CMDLEN]
    exact getCMD_of_none (by rw [hcmd]; exact (spec cmd).1.mpr hmem)
  · intro h2 hdes
    rw [Header.Deserialize] at hdes
    by_cases hb : buf.length < HEADERLEN
    · rw [if_pos hb] at hdes
      exact absurd hdes (by simp)
    rw [if_neg hb] at hdes
    cases hi : ((buf.drop CMDOFFSET).take CMDLEN).indexOf? 0 with
    | none =>
      rw [hi] at hdes
      exact absurd hdes (by simp)
    | some e =>
      rw [hi] at hdes
      obtain rfl : _ = h2 := by simpa using hdes
      rw [getCMD_of_some hi]
      simp

/-- Witness for C10 on concrete headers: a deserialised-shape command is
total, a 12-non-NUL-byte command panics. -/
theorem c10_witness :
    (Header.mk 1 [118, 101, 114, 0, 0, 0, 0, 0, 0, 0, 0, 0] 0 [1, 2, 3, 4]).GetCMD ≠ none ∧
    (NewHeader 1 [1, 2, 3, 4, 5, 6, 7, 8, 9, 10, 11, 12] [1, 2, 3, 4] 0).GetCMD = none := by
  constructor
  · intro h
    have := (c10_getCMD_partiality
      (Header.mk 1 [118, 101, 114, 0, 0, 0, 0, 0, 0, 0, 0, 0] 0 [1, 2, 3, 4])
      1 [] [] [] 0).1.mp h
    simp at this
  · exact (c10_getCMD_partiality (Header.mk 0 [] 0 []) 1
      [1, 2, 3, 4, 5, 6, 7, 8, 9, 10, 11, 12] [1, 2, 3, 4] [] 0).2.2.1
      (by decide) (by decide)

/-- **C5 counterexample.** A framed message whose 12-byte command field holds
a non-NUL byte (88) after its first NUL, and whose declared body length
33685504 exceeds the 32 MiB cap (33554432), is accepted: `Deserialize`
succeeds and `Verify` returns no error once magic and checksum match — the
framer checks neither the cap nor the bytes after the first NUL. -/
theorem c5_counterexample_lenient_framer :
    Header.Deserialize
        ([1, 0, 0, 0] ++ [112, 105, 110, 103, 0, 88, 0, 0, 0, 0, 0, 0] ++
          [0, 0, 2, 2] ++ [9, 9, 9, 9]) =
      .ok ⟨1, [112, 105, 110, 103, 0, 88, 0, 0, 0, 0, 0, 0], 33685504, [9, 9, 9, 9]⟩ ∧
    33554432 < 33685504 ∧
    Header.Verify 1 (fun _ => [9, 9, 9, 9])
        ⟨1, [112, 105, 110, 103, 0, 88, 0, 0, 0, 0, 0, 0], 33685504, [9, 9, 9, 9]⟩ [] =
      .ok () :=
  ⟨rfl, by norm_num, rfl⟩

/-- **C5 (amended).** On receipt the framer rejects a message iff the magic
differs from the configured network magic or the checksum differs from the
first 4 bytes of `Sha256D(body)` (`Header.Verify`), and `Header.Deserialize`
rejects (given a full 24-byte header) iff the command field contains no NUL
at all.  There is no body-length cap, and bytes after the first NUL are not
examined. -/
theorem c5_framer_verification (configMagic : Nat) (sha256d : List Nat → List Nat)
    (hdr : Header) (buf body : List Nat) :
    (hdr.Verify configMagic sha256d body = .ok () ↔
      (hdr.Magic = configMagic ∧ hdr.Checksum = (sha256d body).take CHECKSUMLEN)) ∧
    (HEADERLEN ≤ buf.length →
      ((∃ h2, Header.Deserialize buf = .ok h2) ↔ 0 ∈ (buf.drop CMDOFFSET).take CMDLEN)) := by
  constructor
  · rw [Header.Verify]
    by_cases h1 : hdr.Magic = configMagic
    · rw [if_neg (by simpa using h1)]
      by_cases h2 : hdr.Checksum = (sha256d body).take CHECKSUMLEN
      · rw [if_neg (by simpa using h2)]
        simp [h1, h2]
      · rw [if_pos (by simpa using h2)]
        simp [h2]
    · rw [if_pos (by simpa using h1)]
      simp [h1]
  · intro hlen
    rw [Header.Deserialize, if_neg (by omega)]
    match hi : ((buf.drop CMDOFFSET).take CMDLEN).indexOf? 0 with
    | none =>
      have := (indexOf?_zero_spec _).1.mp hi
      simp [this]
    | some e =>
      obtain ⟨pre, post, hl, -, -⟩ := (indexOf?_zero_spec _).2 e hi
      constructor
      · intro _
        rw [hl]
        simp
      · intro _
        exact ⟨_, rfl⟩

/-- Witness for C5's amended statement: a good header passes, a bad magic
fails, a NUL-free command fails to deserialize. -/
theorem c5_witness :
    Header.Verify 7 (fun _ => [1, 2, 3, 4, 5]) ⟨7, [], 0, [1, 2, 3, 4]⟩ [] = .ok () ∧
    Header.Verify 8 (fun _ => [1, 2, 3, 4, 5]) ⟨7, [], 0, [1, 2, 3, 4]⟩ [] ≠ .ok () ∧
    (∃ h2, Header.Deserialize
      ([1, 0, 0, 0] ++ [112, 105, 110, 103, 0, 0, 0, 0, 0, 0, 0, 0] ++
        [0, 0, 0, 0] ++ [9, 9, 9, 9]) = .ok h2) := by
  refine ⟨?_, ?_, ?_⟩
  · exact (c5_framer_verification 7 (fun _ => [1, 2, 3, 4, 5])
      ⟨7, [], 0, [1, 2, 3, 4]⟩ [] []).1.mpr ⟨rfl, by decide⟩
  · intro h
    have := (c5_framer_verification 8 (fun _ => [1, 2, 3, 4, 5])
      ⟨7, [], 0, [1, 2, 3, 4]⟩ [] []).1.mp h
    simp at this
  · exact ((c5_framer_verification 0 (fun _ => []) ⟨0, [], 0, []⟩
      ([1, 0, 0, 0] ++ [112, 105, 110, 103, 0, 0, 0, 0, 0, 0, 0, 0] ++
        [0, 0, 0, 0] ++ [9, 9, 9, 9]) []).2 (by decide)).mpr (by decide)

/-- Witness for C8's amended statement on concrete readers. -/
theorem c8_amended_witness :
    ReadUint32 [] = .error .errEof ∧ ReadUint16 [7, 1, 2] = .ok (263, [2]) ∧
      ReadBytes 3 [] = .error .ioEOF ∧ ReadVarUint 5 [9] = .error .errRange := by
  refine ⟨((c8_read_primitives_errors []).2.2.1).2 rfl, ?_, ?_, ?_⟩
  · have := ((c8_read_primitives_errors [7, 1, 2]).2.2.2.2.1) (by simp)
    rw [this]; rfl
  · exact ((c8_read_primitives_errors []).2.2.2.2.2.1) 3 (by norm_num) rfl
  · have := ((c8_read_primitives_errors [9]).2.2.2.2.2.2) 5 9 [] (by rfl)
    rw [this]; norm_num

/-! ## `bloom` — the partial merkle tree verifier

`CheckMerkleBlock` parses a `MerkleBlock` (total transaction count, hash
list, flag bits) with an explicit stack.  The hash type `Uint256` is kept
abstract (`α` with decidable equality); `Sha256D` of the 64-byte
concatenation of two nodes is the abstract combiner `sha`. -/

/-- `func MakeMerkleParent(left, right *Uint256) (*Uint256, error)` — the
CVE-2012-2459 duplicate check fires first (both non-nil and equal); a nil
left child is an error; a nil right child is replaced by the left. -/
def MakeMerkleParent {α : Type} [DecidableEq α] (sha : α → α → α)
    (left right : Option α) : Except String α :=
  match left, right with
  | some l, some r => if l = r then .error "DUP HASH CRASH" else .ok (sha l r)
  | none, _ => .error "Left child is nil"
  | some l, none => .ok (sha l l)

/-- `func treeDepth(n uint32) (e uint32)` — iterate shifting left until
`1 << e` reaches `n`.  The first argument only bounds the iteration count
(`e` stops at the base-2 logarithm, and `2 ^ (n - 1) ≥ n`, so `n` rounds
are never exhausted; for `n > 2^31` the Go `uint32` shift would wrap and
the loop would not terminate, which no caller can reach). -/
def treeDepthAux (n : Nat) : Nat → Nat → Nat
  | 0, e => e
  | fuel + 1, e => if 1 <<< e < n then treeDepthAux n fuel (e + 1) else e

/-- `treeDepth`, starting the iteration at `e = 0`. -/
def treeDepth (n : Nat) : Nat := treeDepthAux n n 0

/-- `func nextPowerOfTwo(n uint32) uint32` — smallest power of 2 that can
contain `n`. -/
def nextPowerOfTwo (n : Nat) : Nat := 1 <<< treeDepth n

/-- The `for pos >= h` ascent loop of `inDeadZone`.  The fuel only bounds
the iteration count (`h` strictly grows toward `2*msb - 1` on every call
`inDeadZone` makes, so `pos + 2` iterations are never exhausted); at each
level `h` is the leftmost position of the next row and `last` the highest
valid position of the current row. -/
def dzLoop (msb : Nat) : Nat → Nat → Nat → Nat → Bool
  | 0, pos, _, last => pos > last
  | fuel + 1, pos, h, last =>
    if pos ≥ h then dzLoop msb fuel pos (h >>> 1 ||| msb) (last >>> 1 ||| msb)
    else pos > last

/-- `func inDeadZone(pos, size uint32) bool` — position beyond the last
populated node of its row (or beyond the root).  (`size - 1` underflows a
Go `uint32` for `size = 0`; `CheckMerkleBlock` rejects that case before any
call, and the `Nat` truncation is harmless there.) -/
def inDeadZone (pos size : Nat) : Bool :=
  let msb := nextPowerOfTwo size
  let last := size - 1
  if pos > (msb <<< 1) - 2 then true
  else dzLoop msb (pos + 2) pos msb last

/-- `type merkleNode struct { p uint32; h *Uint256 }`. -/
structure merkleNode (α : Type) where
  p : Nat
  h : Option α
  deriving DecidableEq, Repr

/-- `type MerkleBlock struct` — of `BlockHeader` only the `MerkleRoot`
field is consulted by `CheckMerkleBlock`.  `Hashes` entries are the
(non-nil, as produced by `Deserialize`) hash values; `Flags` the raw flag
bytes. -/
structure MerkleBlock (α : Type) where
  MerkleRoot : α
  Transactions : Nat
  Hashes : List α
  Flags : List Nat
  deriving DecidableEq, Repr

/-- The mutable state of `CheckMerkleBlock`'s main loop: the node stack
(`s`, with the Go slice's *last* element, the tip, at the list head), the
collected txids `r`, the current position, and the remaining hash / flag
input together with the bit index `i` into the current flag byte.  `msb`,
`transactions` and `root` are the loop-invariant parameters. -/
structure CheckState (α : Type) where
  s : List (merkleNode α)
  r : List α
  pos : Nat
  msb : Nat
  hashes : List α
  flags : List Nat
  i : Nat
  transactions : Nat
  root : α
  deriving DecidableEq, Repr

/-- `i++; if i == 8 { i = 0; m.Flags = m.Flags[1:] }` — the flag-bit cursor
advance that ends every node-creating iteration.  (Go's `i` is a `uint8`
the loop keeps in `[0,7]`; the `≥` makes the function total on all states
without changing any reachable one.) -/
def advanceFlag {α : Type} (st : CheckState α) : CheckState α :=
  if st.i + 1 ≥ 8 then { st with i := 0, flags := st.flags.tail }
  else { st with i := st.i + 1 }

/-- One iteration of `CheckMerkleBlock`'s main loop, in the order of the Go
code: (1) a single filled stack entry is compared against the header's
merkle root; (2) a dead-zone position makes a parent from the left child
alone (two stack entries are accessed — fewer is the Go slice-index panic);
(3) two filled nodes atop a third combine into it; otherwise (4) a new node
is made from the message hashes and flag bits. -/
def stepByte {α : Type} [DecidableEq α] (sha : α → α → α) (st : CheckState α) :
    Except String (List α) ⊕ CheckState α :=
  match st.s with
  | [⟨_, some h0⟩] =>
    if h0 = st.root then .inl (.ok st.r)
    else .inl (.error "computed root does not match the header merkle root")
  | s =>
    if inDeadZone st.pos st.transactions then
      match s with
      | top :: nx :: rest =>
        match MakeMerkleParent sha top.h none with
        | .error e => .inl (.error e)
        | .ok hh => .inr { st with s := ⟨nx.p, some hh⟩ :: rest, pos := nx.p ||| 1 }
      | _ => .inl (.error "PANIC: index out of range")
    else
      match s with
      | ⟨_, some ht⟩ :: ⟨_, some hn⟩ :: third :: rest =>
        match MakeMerkleParent sha (some hn) (some ht) with
        | .error e => .inl (.error e)
        | .ok hh => .inr { st with s := ⟨third.p, some hh⟩ :: rest, pos := third.p ||| 1 }
      | _ =>
        if st.hashes = [] then
          .inl (.error ("Ran out of hashes at position " ++ toString st.pos ++ "."))
        else if st.flags = [] then .inl (.error "Ran out of flag bits.")
        else
          match st.hashes, st.flags with
          | hh :: htl, fb :: _ =>
            if st.pos &&& st.msb ≠ 0 then
              if fb &&& (1 <<< st.i) = 0 then
                .inr (advanceFlag { st with
                  s := ⟨st.pos, some hh⟩ :: st.s
                  hashes := htl
                  pos := (if st.pos &&& 1 ≠ 0 then st.pos >>> 1 ||| st.msb
                          else st.pos ||| 1) })
              else
                .inr (advanceFlag { st with
                  s := ⟨st.pos, none⟩ :: st.s
                  pos := (st.pos ^^^ st.msb) <<< 1 })
            else
              if st.pos ≥ st.transactions then
                .inl (.error "got into an invalid txid node")
              else
                .inr (advanceFlag { st with
                  s := ⟨st.pos, some hh⟩ :: st.s
                  hashes := htl
                  r := (if fb &&& (1 <<< st.i) ≠ 0 then st.r ++ [hh] else st.r)
                  pos := (if st.pos &&& 1 = 0 then st.pos ||| 1 else st.pos) })
          | _, _ => .inl (.error "unreachable: emptiness already checked")

/-- Iteration measure of the loop: every step either consumes a flag bit
(and pushes one node) or shrinks the stack. -/
def measByte {α : Type} (st : CheckState α) : Nat :=
  3 * (8 * st.flags.length - min st.i 7) + st.s.length

theorem stepByte_decreases {α : Type} [DecidableEq α] {sha : α → α → α}
    {st st' : CheckState α} (h : stepByte sha st = .inr st') :
    measByte st' < measByte st := by
  classical
  unfold stepByte at h
  split at h
  · split at h <;> cases h
  · split at h
    · split at h
      · split at h
        · cases h
        · cases h
          simp_all [measByte]
      · cases h
    · split at h
      · split at h
        · cases h
        · cases h
          simp_all [measByte]
      · split at h
        · cases h
        split at h
        · cases h
        split at h
        · split at h
          · split at h <;>
            · cases h
              simp only [measByte, advanceFlag]
              split <;> simp_all <;> omega
          · split at h
            · cases h
            · cases h
              simp only [measByte, advanceFlag]
              split <;> simp_all <;> omega
        · cases h

/-- The main loop, fuel-indexed for structural recursion; `checkLoop` below
supplies fuel equal to the measure, which `stepByte_decreases` shows is
never exhausted, so the fuel-out arm is unreachable. -/
def checkLoopF {α : Type} [DecidableEq α] (sha : α → α → α) :
    Nat → CheckState α → Except String (List α)
  | 0, st =>
    match stepByte sha st with
    | .inl res => res
    | .inr _ => .error "out of fuel (unreachable: the measure bounds the iterations)"
  | fuel + 1, st =>
    match stepByte sha st with
    | .inl res => res
    | .inr st' => checkLoopF sha fuel st'

/-- `for { … }` — the main loop of `CheckMerkleBlock`. -/
def checkLoop {α : Type} [DecidableEq α] (sha : α → α → α) (st : CheckState α) :
    Except String (List α) :=
  checkLoopF sha (measByte st) st

theorem checkLoopF_congr {α : Type} [DecidableEq α] (sha : α → α → α) :
    ∀ (f g : Nat) (st : CheckState α), measByte st ≤ f → measByte st ≤ g →
      checkLoopF sha f st = checkLoopF sha g st := by
  intro f
  induction f with
  | zero =>
    intro g st hf hg
    cases g with
    | zero => rfl
    | succ g =>
      rw [checkLoopF, checkLoopF]
      match hstep : stepByte sha st with
      | .inl res => rfl
      | .inr st' => exact absurd (stepByte_decreases hstep) (by omega)
  | succ f ih =>
    intro g st hf hg
    cases g with
    | zero =>
      rw [checkLoopF, checkLoopF]
      match hstep : stepByte sha st with
      | .inl res => rfl
      | .inr st' => exact absurd (stepByte_decreases hstep) (by omega)
    | succ g =>
      rw [checkLoopF, checkLoopF]
      match hstep : stepByte sha st with
      | .inl res => rfl
      | .inr st' =>
        have hd := stepByte_decreases hstep
        exact ih g st' (by omega) (by omega)

/-- The loop unrolls one `stepByte` at a time. -/
theorem checkLoop_eq {α : Type} [DecidableEq α] (sha : α → α → α) (st : CheckState α) :
    checkLoop sha st =
      match stepByte sha st with
      | .inl res => res
      | .inr st' => checkLoop sha st' := by
  rw [checkLoop]
  match hstep : stepByte sha st with
  | .inl res =>
    cases hm : measByte st <;> rw [checkLoopF] <;> rw [hstep]
  | .inr st' =>
    have hd := stepByte_decreases hstep
    cases hm : measByte st with
    | zero => omega
    | succ m =>
      rw [checkLoopF, hstep]
      exact checkLoopF_congr sha m (measByte st') st' (by omega) le_rfl

theorem checkLoop_inl {α : Type} [DecidableEq α] {sha : α → α → α} {st : CheckState α}
    {res : Except String (List α)} (h : stepByte sha st = .inl res) :
    checkLoop sha st = res := by
  rw [checkLoop_eq, h]

theorem checkLoop_inr {α : Type} [DecidableEq α] {sha : α → α → α} {st st' : CheckState α}
    (h : stepByte sha st = .inr st') : checkLoop sha st = checkLoop sha st' := by
  rw [checkLoop_eq, h]

/-- `func CheckMerkleBlock(m MerkleBlock) ([]*Uint256, error)` — the two
up-front rejections, then the stack loop from the root position.  (On the
error paths Go returns a nil or partial txid slice together with the error;
the `Except` carries the error alone.) -/
def CheckMerkleBlock {α : Type} [DecidableEq α] (sha : α → α → α) (m : MerkleBlock α) :
    Except String (List α) :=
  if m.Transactions = 0 then .error "No transactions in merkleblock"
  else if m.Flags.length = 0 then .error "No flag bits"
  else
    checkLoop sha
      { s := []
        r := []
        pos := (nextPowerOfTwo m.Transactions <<< 1) - 2
        msb := nextPowerOfTwo m.Transactions
        hashes := m.Hashes
        flags := m.Flags
        i := 0
        transactions := m.Transactions
        root := m.MerkleRoot }

/-- Stack shapes on which neither the single-filled root comparison nor the
two-filled combine can fire: empty, an unfilled tip, or a filled tip over an
unfilled node.  (Every state the loop reaches just before drawing a new
node from the message has one of these shapes.) -/
def noStackOp {α : Type} (s : List (merkleNode α)) : Prop :=
  s = [] ∨ (∃ p rest, s = ⟨p, none⟩ :: rest) ∨
    (∃ p hp q rest, s = ⟨p, some hp⟩ :: ⟨q, none⟩ :: rest)

/-- **C2.** Combining two non-nil equal siblings fails with
"DUP HASH CRASH" (for every hash type and combiner), and the merkle block
claiming 4 transactions whose hash list duplicates the last leaf of the
odd-width (3-leaf) bottom row is rejected by `CheckMerkleBlock` with
exactly that error, whatever the combiner is (the duplicate guard fires
before any hash is computed or compared to the root; flags `0x1D` expand
the root and its right subtree, the left subtree root coming straight from
the hash list, the claimed leaves 2 and 3 both carrying the duplicated last
real leaf). -/
theorem c2_duplicate_hash_defense {α : Type} [DecidableEq α] (sha : α → α → α) (l : α) :
    MakeMerkleParent sha (some l) (some l) = .error "DUP HASH CRASH" ∧
    (∀ shaN : Nat → Nat → Nat,
      CheckMerkleBlock shaN
        { MerkleRoot := 0, Transactions := 4, Hashes := [0, 2, 2], Flags := [0x1D] } =
        .error "DUP HASH CRASH") := by
  constructor
  · simp [MakeMerkleParent]
  · intro shaN
    rfl

/-- Witness for C2 at a concrete hash type and combiner. -/
theorem c2_witness :
    MakeMerkleParent (fun a b : Nat => a * 1000 + b + 1) (some 5) (some 5) =
      .error "DUP HASH CRASH" ∧
    CheckMerkleBlock (fun a b : Nat => a * 1000 + b + 1)
      { MerkleRoot := 0, Transactions := 4, Hashes := [0, 2, 2], Flags := [0x1D] } =
      .error "DUP HASH CRASH" :=
  ⟨(c2_duplicate_hash_defense (fun a b : Nat => a * 1000 + b + 1) 5).1,
    (c2_duplicate_hash_defense (fun a b : Nat => a * 1000 + b + 1) 5).2
      (fun a b => a * 1000 + b + 1)⟩

/-- **C9.** `Transactions = 0` is rejected as "No transactions in
merkleblock" and an empty flag array as "No flag bits" (when both hold the
transaction check fires first); the hash list is arbitrary in every case —
no hash is consumed — and no transaction ids accompany the error. -/
theorem c9_empty_transactions_and_flags {α : Type} [DecidableEq α] (sha : α → α → α)
    (root : α) (n : Nat) (hashes : List α) (flags : List Nat) :
    (CheckMerkleBlock sha
        { MerkleRoot := root, Transactions := 0, Hashes := hashes, Flags := flags } =
      .error "No transactions in merkleblock") ∧
    (n ≠ 0 → CheckMerkleBlock sha
        { MerkleRoot := root, Transactions := n, Hashes := hashes, Flags := [] } =
      .error "No flag bits") ∧
    (∃ e, CheckMerkleBlock sha
        { MerkleRoot := root, Transactions := n, Hashes := hashes, Flags := [] } =
      .error e) := by
  refine ⟨rfl, fun hn => ?_, ?_⟩
  · rw [CheckMerkleBlock, if_neg hn]
    rfl
  · by_cases hn : n = 0
    · subst hn
      exact ⟨_, rfl⟩
    · refine ⟨"No flag bits", ?_⟩
      rw [CheckMerkleBlock, if_neg hn]
      rfl

/-- Witness for C9 at a concrete block. -/
theorem c9_witness :
    CheckMerkleBlock (fun a b : Nat => a + b)
        { MerkleRoot := 3, Transactions := 0, Hashes := [1, 2], Flags := [1] } =
      .error "No transactions in merkleblock" ∧
    CheckMerkleBlock (fun a b : Nat => a + b)
        { MerkleRoot := 3, Transactions := 5, Hashes := [1, 2], Flags := [] } =
      .error "No flag bits" :=
  ⟨(c9_empty_transactions_and_flags (fun a b : Nat => a + b) 3 5 [1, 2] [1]).1,
    (c9_empty_transactions_and_flags (fun a b : Nat => a + b) 3 5 [1, 2] [1]).2.1
      (by norm_num)⟩

theorem checkLoop_err_root {α : Type} [DecidableEq α] (sha : α → α → α) (p : Nat) (h0 : α)
    (r : List α) (pos msb i tx : Nat) (hashes : List α) (flags : List Nat) (root : α)
    (hne : h0 ≠ root) :
    checkLoop sha ⟨[⟨p, some h0⟩], r, pos, msb, hashes, flags, i, tx, root⟩ =
      .error "computed root does not match the header merkle root" := by
  rw [checkLoop_eq]
  have hstep : stepByte sha
      (⟨[⟨p, some h0⟩], r, pos, msb, hashes, flags, i, tx, root⟩ : CheckState α) =
      .inl (.error "computed root does not match the header merkle root") := by
    simp only [stepByte]
    rw [if_neg hne]
  rw [hstep]

theorem checkLoop_err_hashes {α : Type} [DecidableEq α] (sha : α → α → α)
    (s : List (merkleNode α)) (r : List α) (pos msb i tx : Nat) (flags : List Nat) (root : α)
    (hno : noStackOp s) (hdz : inDeadZone pos tx = false) :
    checkLoop sha ⟨s, r, pos, msb, [], flags, i, tx, root⟩ =
      .error ("Ran out of hashes at position " ++ toString pos ++ ".") := by
  rw [checkLoop_eq]
  have hstep : stepByte sha (⟨s, r, pos, msb, [], flags, i, tx, root⟩ : CheckState α) =
      .inl (.error ("Ran out of hashes at position " ++ toString pos ++ ".")) := by
    rcases hno with rfl | ⟨p', rest, rfl⟩ | ⟨p', hp, q, rest, rfl⟩
    · simp only [stepByte]
      rw [hdz]
      simp
    · cases rest with
      | nil =>
        simp only [stepByte]
        rw [hdz]
        simp
      | cons a as =>
        simp only [stepByte]
        rw [hdz]
        simp
    · simp only [stepByte]
      rw [hdz]
      simp
  rw [hstep]

theorem checkLoop_err_flags {α : Type} [DecidableEq α] (sha : α → α → α)
    (s : List (merkleNode α)) (r : List α) (pos msb i tx : Nat) (hashes : List α) (root : α)
    (hno : noStackOp s) (hdz : inDeadZone pos tx = false) (hh : hashes ≠ []) :
    checkLoop sha ⟨s, r, pos, msb, hashes, [], i, tx, root⟩ =
      .error "Ran out of flag bits." := by
  rw [checkLoop_eq]
  obtain ⟨hx, hrest, rfl⟩ : ∃ hx hrest, hashes = hx :: hrest := by
    cases hashes with
    | nil => exact absurd rfl hh
    | cons a b => exact ⟨a, b, rfl⟩
  have hstep : stepByte sha (⟨s, r, pos, msb, hx :: hrest, [], i, tx, root⟩ : CheckState α) =
      .inl (.error "Ran out of flag bits.") := by
    rcases hno with rfl | ⟨p', rest, rfl⟩ | ⟨p', hp, q, rest, rfl⟩
    · simp only [stepByte]
      rw [hdz]
      simp
    · cases rest with
      | nil =>
        simp only [stepByte]
        rw [hdz]
        simp
      | cons a as =>
        simp only [stepByte]
        rw [hdz]
        simp
    · simp only [stepByte]
      rw [hdz]
      simp
  rw [hstep]

theorem checkLoop_err_leaf {α : Type} [DecidableEq α] (sha : α → α → α)
    (s : List (merkleNode α)) (r : List α) (pos msb i tx : Nat)
    (hashes : List α) (flags : List Nat) (root : α)
    (hno : noStackOp s) (hdz : inDeadZone pos tx = false) (hh : hashes ≠ [])
    (hf : flags ≠ []) (hleaf : pos &&& msb = 0) (hbig : tx ≤ pos) :
    checkLoop sha ⟨s, r, pos, msb, hashes, flags, i, tx, root⟩ =
      .error "got into an invalid txid node" := by
  rw [checkLoop_eq]
  obtain ⟨hx, hrest, rfl⟩ : ∃ hx hrest, hashes = hx :: hrest := by
    cases hashes with
    | nil => exact absurd rfl hh
    | cons a b => exact ⟨a, b, rfl⟩
  obtain ⟨fb, frest, rfl⟩ : ∃ fb frest, flags = fb :: frest := by
    cases flags with
    | nil => exact absurd rfl hf
    | cons a b => exact ⟨a, b, rfl⟩
  have hstep : stepByte sha
      (⟨s, r, pos, msb, hx :: hrest, fb :: frest, i, tx, root⟩ : CheckState α) =
      .inl (.error "got into an invalid txid node") := by
    rcases hno with rfl | ⟨p', rest, rfl⟩ | ⟨p', hp, q, rest, rfl⟩
    · simp only [stepByte]
      rw [hdz]
      simp [hleaf, hbig]
    · cases rest with
      | nil =>
        simp only [stepByte]
        rw [hdz]
        simp [hleaf, hbig]
      | cons a as =>
        simp only [stepByte]
        rw [hdz]
        simp [hleaf, hbig]
    · simp only [stepByte]
      rw [hdz]
      simp [hleaf, hbig]
  rw [hstep]

/-- **C3 (amended).** The loop rejects the message whenever it needs a new
node but the hash list is exhausted, or the flag bits are exhausted, or a
bottom-row position at or beyond `tx_count` is reached, or the stack has
reduced to a single filled node whose hash differs from the header's merkle
root — and two whole-block runs of the reachable rejections.  (Hashes left
over after the root is computed are *not* rejected; see the
counterexample.) -/
theorem c3_consistency_rejections {α : Type} [DecidableEq α] (sha : α → α → α)
    (s : List (merkleNode α)) (r : List α) (pos msb i tx : Nat)
    (hashes : List α) (flags : List Nat) (root : α) (p : Nat) (h0 : α) :
    (noStackOp s → inDeadZone pos tx = false → hashes = [] →
      checkLoop sha ⟨s, r, pos, msb, hashes, flags, i, tx, root⟩ =
        .error ("Ran out of hashes at position " ++ toString pos ++ ".")) ∧
    (noStackOp s → inDeadZone pos tx = false → hashes ≠ [] → flags = [] →
      checkLoop sha ⟨s, r, pos, msb, hashes, flags, i, tx, root⟩ =
        .error "Ran out of flag bits.") ∧
    (noStackOp s → inDeadZone pos tx = false → hashes ≠ [] → flags ≠ [] →
      pos &&& msb = 0 → tx ≤ pos →
      checkLoop sha ⟨s, r, pos, msb, hashes, flags, i, tx, root⟩ =
        .error "got into an invalid txid node") ∧
    (h0 ≠ root →
      checkLoop sha ⟨[⟨p, some h0⟩], r, pos, msb, hashes, flags, i, tx, root⟩ =
        .error "computed root does not match the header merkle root") ∧
    (∀ hx rootx : α, hx ≠ rootx →
      CheckMerkleBlock sha
          { MerkleRoot := rootx, Transactions := 1, Hashes := [hx], Flags := [1] } =
        .error "computed root does not match the header merkle root") ∧
    (CheckMerkleBlock sha
        { MerkleRoot := root, Transactions := 1, Hashes := [], Flags := [1] } =
      .error "Ran out of hashes at position 0.") ∧
    (CheckMerkleBlock (fun a b : Nat => a * 1000 + b + 1)
        { MerkleRoot := 0, Transactions := 8, Hashes := [0, 1, 2, 3, 4], Flags := [0xFF] } =
      .error "Ran out of flag bits.") := by
  refine ⟨?_, ?_, ?_, ?_, ?_, ?_, ?_⟩
  · intro hno hdz hh
    subst hh
    exact checkLoop_err_hashes sha s r pos msb i tx flags root hno hdz
  · intro hno hdz hh hf
    subst hf
    exact checkLoop_err_flags sha s r pos msb i tx hashes root hno hdz hh
  · intro hno hdz hh hf hleaf hbig
    exact checkLoop_err_leaf sha s r pos msb i tx hashes flags root hno hdz hh hf hleaf hbig
  · intro hne
    exact checkLoop_err_root sha p h0 r pos msb i tx hashes flags root hne
  · intro hx rootx hne
    rw [CheckMerkleBlock, if_neg (by norm_num), if_neg (by norm_num)]
    have h1 : stepByte sha
        (⟨[], [], (nextPowerOfTwo 1 <<< 1) - 2, nextPowerOfTwo 1, [hx], [1], 0, 1, rootx⟩ :
          CheckState α) =
        .inr ⟨[⟨0, some hx⟩], [hx], 1, 1, [], [1], 1, 1, rootx⟩ := by
      with_unfolding_all rfl
    rw [checkLoop_inr h1]
    exact checkLoop_err_root sha 0 hx [hx] 1 1 1 1 [] [1] rootx hne
  · rw [CheckMerkleBlock, if_neg (by norm_num), if_neg (by norm_num)]
    exact checkLoop_err_hashes sha [] [] 0 1 0 1 [1] root (Or.inl rfl) (by rfl)
  · rfl

/-- Witness for C3's amended statement at concrete machine states. -/
theorem c3_witness :
    checkLoop (fun a b : Nat => a + b) ⟨[], [], 0, 1, [], [1], 0, 1, 0⟩ =
      .error "Ran out of hashes at position 0." ∧
    checkLoop (fun a b : Nat => a + b) ⟨[], [], 0, 1, [5], [], 0, 1, 0⟩ =
      .error "Ran out of flag bits." ∧
    checkLoop (fun a b : Nat => a + b) ⟨[], [], 2, 8, [5], [1], 0, 2, 0⟩ =
      .error "got into an invalid txid node" ∧
    checkLoop (fun a b : Nat => a + b) ⟨[⟨0, some 5⟩], [], 1, 1, [], [], 0, 1, 7⟩ =
      .error "computed root does not match the header merkle root" ∧
    CheckMerkleBlock (fun a b : Nat => a + b)
        { MerkleRoot := 7, Transactions := 1, Hashes := [5], Flags := [1] } =
      .error "computed root does not match the header merkle root" := by
  have h := c3_consistency_rejections (fun a b : Nat => a + b)
    [] [] 0 1 0 1 [] [1] 0 0 0
  refine ⟨h.1 (Or.inl rfl) (by rfl) rfl, ?_, ?_, ?_, ?_⟩
  · exact (c3_consistency_rejections (fun a b : Nat => a + b)
      [] [] 0 1 0 1 [5] [] 0 0 0).2.1 (Or.inl rfl) (by rfl) (by simp) rfl
  · exact (c3_consistency_rejections (fun a b : Nat => a + b)
      [] [] 2 8 0 2 [5] [1] 0 0 0).2.2.1 (Or.inl rfl) (by rfl) (by simp) (by simp)
      (by rfl) (by norm_num)
  · exact (c3_consistency_rejections (fun a b : Nat => a + b)
      [] [] 1 1 0 1 [] [] 7 0 5).2.2.2.1 (by norm_num)
  · exact (c3_consistency_rejections (fun a b : Nat => a + b)
      [] [] 0 0 0 0 [] [] 0 0 0).2.2.2.2.1 5 7 (by norm_num)

/-- **C3 counterexample.** A merkle block that verifies with a hash left
over: one transaction, a correct root, but two hashes in the list.  The
loop compares the computed root as soon as the stack holds one filled node
and returns success without checking that the hash list was consumed, so
the claim's "unused trailing hashes are rejected" case does not hold. -/
theorem c3_counterexample_trailing_hashes_accepted :
    CheckMerkleBlock (fun a b : Nat => a * 1000 + b + 1)
      { MerkleRoot := 7, Transactions := 1, Hashes := [7, 99], Flags := [1] } =
      .ok [7] := by
  with_unfolding_all rfl

/-! ## The flag-bit view of the loop

`CheckMerkleBlock` reads its flag input bit by bit (`m.Flags[0] & (1<<i)`,
then `i++` / byte pop).  To reason about runs we relate the byte-and-cursor
machine to an identical machine over the flat list of flag bits; all
simulation arguments are carried out on the bit machine and transported
back through `checkLoop_eq_checkLoopB`. -/

/-- `CheckState` with the flag bytes and bit cursor flattened into the
stream of flag bits. -/
structure CheckStateB (α : Type) where
  s : List (merkleNode α)
  r : List α
  pos : Nat
  msb : Nat
  hashes : List α
  bits : List Bool
  transactions : Nat
  root : α
  deriving DecidableEq, Repr

/-- One loop iteration over the bit stream; identical to `stepByte` except
that the flag test reads the head of `bits` and the cursor advance pops
it. -/
def stepBits {α : Type} [DecidableEq α] (sha : α → α → α) (st : CheckStateB α) :
    Except String (List α) ⊕ CheckStateB α :=
  match st.s with
  | [⟨_, some h0⟩] =>
    if h0 = st.root then .inl (.ok st.r)
    else .inl (.error "computed root does not match the header merkle root")
  | s =>
    if inDeadZone st.pos st.transactions then
      match s with
      | top :: nx :: rest =>
        match MakeMerkleParent sha top.h none with
        | .error e => .inl (.error e)
        | .ok hh => .inr { st with s := ⟨nx.p, some hh⟩ :: rest, pos := nx.p ||| 1 }
      | _ => .inl (.error "PANIC: index out of range")
    else
      match s with
      | ⟨_, some ht⟩ :: ⟨_, some hn⟩ :: third :: rest =>
        match MakeMerkleParent sha (some hn) (some ht) with
        | .error e => .inl (.error e)
        | .ok hh => .inr { st with s := ⟨third.p, some hh⟩ :: rest, pos := third.p ||| 1 }
      | _ =>
        if st.hashes = [] then
          .inl (.error ("Ran out of hashes at position " ++ toString st.pos ++ "."))
        else if st.bits = [] then .inl (.error "Ran out of flag bits.")
        else
          match st.hashes, st.bits with
          | hh :: htl, b :: btl =>
            if st.pos &&& st.msb ≠ 0 then
              if b = false then
                .inr { st with
                  s := ⟨st.pos, some hh⟩ :: st.s
                  hashes := htl
                  bits := btl
                  pos := (if st.pos &&& 1 ≠ 0 then st.pos >>> 1 ||| st.msb
                          else st.pos ||| 1) }
              else
                .inr { st with
                  s := ⟨st.pos, none⟩ :: st.s
                  bits := btl
                  pos := (st.pos ^^^ st.msb) <<< 1 }
            else
              if st.pos ≥ st.transactions then
                .inl (.error "got into an invalid txid node")
              else
                .inr { st with
                  s := ⟨st.pos, some hh⟩ :: st.s
                  hashes := htl
                  bits := btl
                  r := (if b then st.r ++ [hh] else st.r)
                  pos := (if st.pos &&& 1 = 0 then st.pos ||| 1 else st.pos) }
          | _, _ => .inl (.error "unreachable: emptiness already checked")

/-- Iteration measure of the bit machine. -/
def measBits {α : Type} (st : CheckStateB α) : Nat :=
  3 * st.bits.length + st.s.length

theorem stepBits_decreases {α : Type} [DecidableEq α] {sha : α → α → α}
    {st st' : CheckStateB α} (h : stepBits sha st = .inr st') :
    measBits st' < measBits st := by
  classical
  unfold stepBits at h
  split at h
  · split at h <;> cases h
  · split at h
    · split at h
      · split at h
        · cases h
        · cases h
          simp_all [measBits]
      · cases h
    · split at h
      · split at h
        · cases h
        · cases h
          simp_all [measBits]
      · split at h
        · cases h
        split at h
        · cases h
        split at h
        · split at h
          · split at h <;>
            · cases h
              simp_all [measBits]
              omega
          · split at h
            · cases h
            · cases h
              simp_all [measBits]
              omega
        · cases h

/-- The bit-machine loop, fuel-indexed. -/
def checkLoopBF {α : Type} [DecidableEq α] (sha : α → α → α) :
    Nat → CheckStateB α → Except String (List α)
  | 0, st =>
    match stepBits sha st with
    | .inl res => res
    | .inr _ => .error "out of fuel (unreachable: the measure bounds the iterations)"
  | fuel + 1, st =>
    match stepBits sha st with
    | .inl res => res
    | .inr st' => checkLoopBF sha fuel st'

/-- The bit-machine loop. -/
def checkLoopB {α : Type} [DecidableEq α] (sha : α → α → α) (st : CheckStateB α) :
    Except String (List α) :=
  checkLoopBF sha (measBits st) st

theorem checkLoopBF_congr {α : Type} [DecidableEq α] (sha : α → α → α) :
    ∀ (f g : Nat) (st : CheckStateB α), measBits st ≤ f → measBits st ≤ g →
      checkLoopBF sha f st = checkLoopBF sha g st := by
  intro f
  induction f with
  | zero =>
    intro g st hf hg
    cases g with
    | zero => rfl
    | succ g =>
      rw [checkLoopBF, checkLoopBF]
      match hstep : stepBits sha st with
      | .inl res => rfl
      | .inr st' => exact absurd (stepBits_decreases hstep) (by omega)
  | succ f ih =>
    intro g st hf hg
    cases g with
    | zero =>
      rw [checkLoopBF, checkLoopBF]
      match hstep : stepBits sha st with
      | .inl res => rfl
      | .inr st' => exact absurd (stepBits_decreases hstep) (by omega)
    | succ g =>
      rw [checkLoopBF, checkLoopBF]
      match hstep : stepBits sha st with
      | .inl res => rfl
      | .inr st' =>
        have hd := stepBits_decreases hstep
        exact ih g st' (by omega) (by omega)

/-- The bit-machine loop unrolls one `stepBits` at a time. -/
theorem checkLoopB_eq {α : Type} [DecidableEq α] (sha : α → α → α) (st : CheckStateB α) :
    checkLoopB sha st =
      match stepBits sha st with
      | .inl res => res
      | .inr st' => checkLoopB sha st' := by
  rw [checkLoopB]
  match hstep : stepBits sha st with
  | .inl res =>
    cases hm : measBits st <;> rw [checkLoopBF] <;> rw [hstep]
  | .inr st' =>
    have hd := stepBits_decreases hstep
    cases hm : measBits st with
    | zero => omega
    | succ m =>
      rw [checkLoopBF, hstep]
      exact checkLoopBF_congr sha m (measBits st') st' (by omega) le_rfl

theorem checkLoopB_inl {α : Type} [DecidableEq α] {sha : α → α → α} {st : CheckStateB α}
    {res : Except String (List α)} (h : stepBits sha st = .inl res) :
    checkLoopB sha st = res := by
  rw [checkLoopB_eq, h]

theorem checkLoopB_inr {α : Type} [DecidableEq α] {sha : α → α → α} {st st' : CheckStateB α}
    (h : stepBits sha st = .inr st') : checkLoopB sha st = checkLoopB sha st' := by
  rw [checkLoopB_eq, h]

/-- The eight bits of a flag byte, least significant first — the order the
loop's `m.Flags[0]&(1<<i)` test visits them. -/
def byteBits (f : Nat) : List Bool := (List.range 8).map f.testBit

/-- All bits of a flag-byte stream, in visit order. -/
def allBits : List Nat → List Bool
  | [] => []
  | f :: fs => byteBits f ++ allBits fs

/-- The bits a byte-machine state with flag bytes `flags` and cursor `i`
has yet to visit. -/
def bitsOf (flags : List Nat) (i : Nat) : List Bool :=
  match flags with
  | [] => []
  | f :: fs => (byteBits f).drop i ++ allBits fs

/-- The bit view of a byte-machine state. -/
def toB {α : Type} (st : CheckState α) : CheckStateB α :=
  { s := st.s
    r := st.r
    pos := st.pos
    msb := st.msb
    hashes := st.hashes
    bits := bitsOf st.flags st.i
    transactions := st.transactions
    root := st.root }

/-- The flag-cursor invariant the loop maintains: the bit index stays below
8 and is 0 once the bytes run out. -/
def WfFlags {α : Type} (st : CheckState α) : Prop :=
  st.i < 8 ∧ (st.flags = [] → st.i = 0)

theorem byteBits_length (f : Nat) : (byteBits f).length = 8 := by
  simp [byteBits]

theorem bitsOf_zero (fs : List Nat) : bitsOf fs 0 = allBits fs := by
  cases fs <;> rfl

theorem bitsOf_cons (f : Nat) (fs : List Nat) (i : Nat) (hi : i < 8) :
    bitsOf (f :: fs) i =
      f.testBit i :: (if i + 1 ≥ 8 then allBits fs else bitsOf (f :: fs) (i + 1)) := by
  show (byteBits f).drop i ++ allBits fs = _
  have hlen : (byteBits f).length = 8 := byteBits_length f
  have hdrop : (byteBits f).drop i = f.testBit i :: (byteBits f).drop (i + 1) := by
    rw [List.drop_eq_getElem_cons (by omega)]
    congr 1
    simp [byteBits]
  rw [hdrop]
  by_cases h8 : i + 1 ≥ 8
  · have hnil : (byteBits f).drop (i + 1) = [] := List.drop_eq_nil_of_le (by omega)
    rw [if_pos h8, hnil]
    rfl
  · rw [if_neg h8]
    rfl

theorem bitsOf_ne_nil (f : Nat) (fs : List Nat) (i : Nat) (hi : i < 8) :
    bitsOf (f :: fs) i ≠ [] := by
  rw [bitsOf_cons f fs i hi]
  exact List.cons_ne_nil _ _

/-- `flags[0] & (1 << i)` is zero exactly when bit `i` of the byte is
clear. -/
theorem and_shift_eq_zero (f i : Nat) : (f &&& (1 <<< i) = 0) ↔ f.testBit i = false := by
  rw [Nat.one_shiftLeft, Nat.and_two_pow]
  cases h : f.testBit i <;> simp [Nat.pow_eq_zero]

/-- Advancing the cursor pops exactly one bit from the flat bit view, and
keeps the cursor invariant. -/
theorem advanceFlag_bits {α : Type} (st : CheckState α) (hi : st.i < 8)
    (hf : st.flags ≠ []) :
    bitsOf (advanceFlag st).flags (advanceFlag st).i = (bitsOf st.flags st.i).tail ∧
      WfFlags (advanceFlag st) := by
  obtain ⟨fb, ftl, hfe⟩ : ∃ fb ftl, st.flags = fb :: ftl := by
    cases hh : st.flags with
    | nil => exact absurd hh hf
    | cons a l => exact ⟨a, l, rfl⟩
  rw [advanceFlag]
  by_cases h8 : st.i + 1 ≥ 8
  · rw [if_pos h8]
    refine ⟨?_, by show (0 : Nat) < 8; omega, fun _ => rfl⟩
    show bitsOf st.flags.tail 0 = _
    rw [hfe, bitsOf_cons fb ftl st.i hi, if_pos h8]
    exact (bitsOf_zero ftl).trans rfl
  · rw [if_neg h8]
    refine ⟨?_, by show st.i + 1 < 8; omega,
      fun hc => absurd hc (by rw [hfe]; exact List.cons_ne_nil _ _)⟩
    show bitsOf st.flags (st.i + 1) = _
    rw [hfe, bitsOf_cons fb ftl st.i hi, if_neg h8]
    rfl

/-- `toB` pushed through `advanceFlag`, with the state given
componentwise. -/
theorem toB_advanceFlag_mk {α : Type} (s : List (merkleNode α)) (r : List α)
    (pos msb : Nat) (hashes : List α) (fb : Nat) (ftl : List Nat) (i tx : Nat)
    (root : α) (hi : i < 8) :
    toB (advanceFlag ⟨s, r, pos, msb, hashes, fb :: ftl, i, tx, root⟩) =
      ⟨s, r, pos, msb, hashes,
        (if i + 1 ≥ 8 then allBits ftl else bitsOf (fb :: ftl) (i + 1)), tx, root⟩ ∧
      WfFlags (advanceFlag (⟨s, r, pos, msb, hashes, fb :: ftl, i, tx, root⟩ :
        CheckState α)) := by
  rw [advanceFlag]
  by_cases h8 : i + 1 ≥ 8
  · rw [if_pos h8]
    refine ⟨?_, by show (0 : Nat) < 8; omega, fun _ => rfl⟩
    show (⟨s, r, pos, msb, hashes, bitsOf ftl 0, tx, root⟩ : CheckStateB α) = _
    rw [if_pos h8, bitsOf_zero]
  · rw [if_neg h8]
    refine ⟨?_, by show i + 1 < 8; omega, fun hc => absurd hc (List.cons_ne_nil fb ftl)⟩
    show (⟨s, r, pos, msb, hashes, bitsOf (fb :: ftl) (i + 1), tx, root⟩ :
      CheckStateB α) = _
    rw [if_neg h8]

/-- The node-drawing arm of `stepByte` — the code the loop body runs when
the stack admits neither the root comparison, nor a dead-zone fold, nor a
combine — as a standalone function (this arm never hashes, hence no `sha`
parameter). -/
def drawByte {α : Type} [DecidableEq α] (st : CheckState α) :
    Except String (List α) ⊕ CheckState α :=
  if st.hashes = [] then
    .inl (.error ("Ran out of hashes at position " ++ toString st.pos ++ "."))
  else if st.flags = [] then .inl (.error "Ran out of flag bits.")
  else
    match st.hashes, st.flags with
    | hh :: htl, fb :: _ =>
      if st.pos &&& st.msb ≠ 0 then
        if fb &&& (1 <<< st.i) = 0 then
          .inr (advanceFlag { st with
            s := ⟨st.pos, some hh⟩ :: st.s
            hashes := htl
            pos := (if st.pos &&& 1 ≠ 0 then st.pos >>> 1 ||| st.msb
                    else st.pos ||| 1) })
        else
          .inr (advanceFlag { st with
            s := ⟨st.pos, none⟩ :: st.s
            pos := (st.pos ^^^ st.msb) <<< 1 })
      else
        if st.pos ≥ st.transactions then
          .inl (.error "got into an invalid txid node")
        else
          .inr (advanceFlag { st with
            s := ⟨st.pos, some hh⟩ :: st.s
            hashes := htl
            r := (if fb &&& (1 <<< st.i) ≠ 0 then st.r ++ [hh] else st.r)
            pos := (if st.pos &&& 1 = 0 then st.pos ||| 1 else st.pos) })
    | _, _ => .inl (.error "unreachable: emptiness already checked")

/-- The node-drawing arm of `stepBits`, standalone. -/
def drawBits {α : Type} [DecidableEq α] (st : CheckStateB α) :
    Except String (List α) ⊕ CheckStateB α :=
  if st.hashes = [] then
    .inl (.error ("Ran out of hashes at position " ++ toString st.pos ++ "."))
  else if st.bits = [] then .inl (.error "Ran out of flag bits.")
  else
    match st.hashes, st.bits with
    | hh :: htl, b :: btl =>
      if st.pos &&& st.msb ≠ 0 then
        if b = false then
          .inr { st with
            s := ⟨st.pos, some hh⟩ :: st.s
            hashes := htl
            bits := btl
            pos := (if st.pos &&& 1 ≠ 0 then st.pos >>> 1 ||| st.msb
                    else st.pos ||| 1) }
        else
          .inr { st with
            s := ⟨st.pos, none⟩ :: st.s
            bits := btl
            pos := (st.pos ^^^ st.msb) <<< 1 }
      else
        if st.pos ≥ st.transactions then
          .inl (.error "got into an invalid txid node")
        else
          .inr { st with
            s := ⟨st.pos, some hh⟩ :: st.s
            hashes := htl
            bits := btl
            r := (if b then st.r ++ [hh] else st.r)
            pos := (if st.pos &&& 1 = 0 then st.pos ||| 1 else st.pos) }
    | _, _ => .inl (.error "unreachable: emptiness already checked")

/-- Stack shapes on which the loop body (outside the dead zone) falls
through to drawing a new node: the `noStackOp` shapes plus exactly two
filled nodes with nothing beneath them. -/
def drawShape {α : Type} (s : List (merkleNode α)) : Prop :=
  noStackOp s ∨ ∃ p hp q hq, s = [(⟨p, some hp⟩ : merkleNode α), ⟨q, some hq⟩]

theorem stepByte_eq_drawByte {α : Type} [DecidableEq α] (sha : α → α → α)
    (st : CheckState α) (hs : drawShape st.s)
    (hdz : inDeadZone st.pos st.transactions = false) :
    stepByte sha st = drawByte st := by
  obtain ⟨s, r, pos, msb, hashes, flags, i, tx, root⟩ := st
  rcases hs with (rfl | ⟨p, rest, rfl⟩ | ⟨p, hp, q, rest, rfl⟩) | ⟨p, hp, q, hq, rfl⟩
  · simp only [stepByte]
    rw [hdz]
    rfl
  · cases rest with
    | nil =>
      simp only [stepByte]
      rw [hdz]
      rfl
    | cons a as =>
      simp only [stepByte]
      rw [hdz]
      rfl
  · simp only [stepByte]
    rw [hdz]
    rfl
  · simp only [stepByte]
    rw [hdz]
    rfl

theorem stepBits_eq_drawBits {α : Type} [DecidableEq α] (sha : α → α → α)
    (st : CheckStateB α) (hs : drawShape st.s)
    (hdz : inDeadZone st.pos st.transactions = false) :
    stepBits sha st = drawBits st := by
  obtain ⟨s, r, pos, msb, hashes, bits, tx, root⟩ := st
  rcases hs with (rfl | ⟨p, rest, rfl⟩ | ⟨p, hp, q, rest, rfl⟩) | ⟨p, hp, q, hq, rfl⟩
  · simp only [stepBits]
    rw [hdz]
    rfl
  · cases rest with
    | nil =>
      simp only [stepBits]
      rw [hdz]
      rfl
    | cons a as =>
      simp only [stepBits]
      rw [hdz]
      rfl
  · simp only [stepBits]
    rw [hdz]
    rfl
  · simp only [stepBits]
    rw [hdz]
    rfl

/-- The node-drawing arm of the bit machine simulates that of the byte
machine exactly: same outcome under `toB`, and the byte machine's flag
cursor stays well-formed. -/
theorem drawByte_toB {α : Type} [DecidableEq α] (st : CheckState α) (hwf : WfFlags st) :
    (∀ res, drawByte st = .inl res → drawBits (toB st) = .inl res) ∧
      ∀ st', drawByte st = .inr st' →
        drawBits (toB st) = .inr (toB st') ∧ WfFlags st' := by
  obtain ⟨s, r, pos, msb, hashes, flags, i, tx, root⟩ := st
  obtain ⟨hi, hfn⟩ := hwf
  cases hashes with
  | nil =>
    refine ⟨?_, ?_⟩
    · intro res h
      rw [drawByte] at h
      simp at h
      subst h
      show drawBits ⟨s, r, pos, msb, [], bitsOf flags i, tx, root⟩ = _
      rw [drawBits]
      simp
    · intro st' h
      rw [drawByte] at h
      simp at h
  | cons hx htl =>
    cases flags with
    | nil =>
      have hi0 : i = 0 := hfn rfl
      subst hi0
      refine ⟨?_, ?_⟩
      · intro res h
        rw [drawByte] at h
        simp at h
        subst h
        show drawBits ⟨s, r, pos, msb, hx :: htl, bitsOf [] 0, tx, root⟩ = _
        rw [drawBits]
        simp [bitsOf]
      · intro st' h
        rw [drawByte] at h
        simp at h
    | cons fb ftl =>
      clear hfn
      have hbits := bitsOf_cons fb ftl i hi
      have hL : drawBits (toB (⟨s, r, pos, msb, hx :: htl, fb :: ftl, i, tx, root⟩ :
          CheckState α)) =
          drawBits ⟨s, r, pos, msb, hx :: htl,
            fb.testBit i ::
              (if i + 1 ≥ 8 then allBits ftl else bitsOf (fb :: ftl) (i + 1)),
            tx, root⟩ := by
        show drawBits ⟨s, r, pos, msb, hx :: htl, bitsOf (fb :: ftl) i, tx, root⟩ = _
        rw [hbits]
      rw [hL]
      rw [drawBits, drawByte]
      simp only [reduceCtorEq, if_false]
      by_cases hpm : pos &&& msb = 0
      · simp only [hpm, ne_eq, not_true_eq_false, if_false]
        by_cases hpt : pos ≥ tx
        · simp only [hpt, if_true]
          refine ⟨?_, ?_⟩
          · intro res h
            injection h with h
            rw [h]
          · intro st' h
            exact Sum.noConfusion h
        · simp only [hpt, if_false]
          refine ⟨?_, ?_⟩
          · intro res h
            exact Sum.noConfusion h
          · intro st' h
            injection h with h
            subst h
            obtain ⟨hA, hW⟩ := toB_advanceFlag_mk (⟨pos, some hx⟩ :: s)
              (if ¬fb &&& (1 <<< i) = 0 then r ++ [hx] else r)
              (if pos &&& 1 = 0 then pos ||| 1 else pos) msb htl fb ftl i tx root hi
            rw [hA]
            refine ⟨?_, hW⟩
            by_cases hb : fb.testBit i = false
            · have h0 : fb &&& (1 <<< i) = 0 := (and_shift_eq_zero fb i).mpr hb
              simp [hb, h0]
            · have h0 : ¬fb &&& (1 <<< i) = 0 := by
                rw [and_shift_eq_zero fb i]
                exact hb
              simp only [Bool.not_eq_false] at hb
              simp [hb, h0]
      · simp only [hpm, ne_eq, not_false_eq_true, if_true]
        by_cases hb : fb.testBit i = false
        · have h0 : fb &&& (1 <<< i) = 0 := (and_shift_eq_zero fb i).mpr hb
          simp only [hb, if_true, h0]
          refine ⟨?_, ?_⟩
          · intro res h
            exact Sum.noConfusion h
          · intro st' h
            injection h with h
            subst h
            obtain ⟨hA, hW⟩ := toB_advanceFlag_mk (⟨pos, some hx⟩ :: s) r
              (if ¬pos &&& 1 = 0 then pos >>> 1 ||| msb else pos ||| 1) msb htl fb ftl
              i tx root hi
            rw [hA]
            exact ⟨rfl, hW⟩
        · have h0 : ¬fb &&& (1 <<< i) = 0 := by
            rw [and_shift_eq_zero fb i]
            exact hb
          simp only [Bool.not_eq_false] at hb
          simp only [hb, h0, if_false]
          refine ⟨?_, ?_⟩
          · intro res h
            exact Sum.noConfusion h
          · intro st' h
            injection h with h
            subst h
            obtain ⟨hA, hW⟩ := toB_advanceFlag_mk (⟨pos, none⟩ :: s) r
              ((pos ^^^ msb) <<< 1) msb (hx :: htl) fb ftl i tx root hi
            rw [hA]
            exact ⟨rfl, hW⟩

/-- One step of the byte machine is simulated by one step of the bit
machine on the `toB` view, preserving the cursor invariant. -/
theorem stepByte_toB {α : Type} [DecidableEq α] (sha : α → α → α) (st : CheckState α)
    (hwf : WfFlags st) :
    (∀ res, stepByte sha st = .inl res → stepBits sha (toB st) = .inl res) ∧
      ∀ st', stepByte sha st = .inr st' →
        stepBits sha (toB st) = .inr (toB st') ∧ WfFlags st' := by
  have hdraw : ∀ (hs : drawShape st.s)
      (hdz : inDeadZone st.pos st.transactions = false),
      (∀ res, stepByte sha st = .inl res → stepBits sha (toB st) = .inl res) ∧
        ∀ st', stepByte sha st = .inr st' →
          stepBits sha (toB st) = .inr (toB st') ∧ WfFlags st' := by
    intro hs hdz
    rw [stepByte_eq_drawByte sha st hs hdz, stepBits_eq_drawBits sha (toB st) hs hdz]
    exact drawByte_toB st hwf
  obtain ⟨s, r, pos, msb, hashes, flags, i, tx, root⟩ := st
  obtain ⟨hi, hfn⟩ := hwf
  by_cases hdz : inDeadZone pos tx = true
  · -- dead zone: the stack shape decides everything; flags are untouched.
    rcases s with _ | ⟨⟨p0, h0⟩, _ | ⟨⟨p1, h1⟩, s2⟩⟩
    · refine ⟨?_, ?_⟩
      · intro res h
        simp [stepByte, hdz] at h
        subst h
        show stepBits sha ⟨[], r, pos, msb, hashes, bitsOf flags i, tx, root⟩ = _
        simp [stepBits, hdz]
      · intro st' h
        simp [stepByte, hdz] at h
    · cases h0 with
      | none =>
        refine ⟨?_, ?_⟩
        · intro res h
          simp [stepByte, hdz] at h
          subst h
          show stepBits sha ⟨[⟨p0, none⟩], r, pos, msb, hashes, bitsOf flags i,
            tx, root⟩ = _
          simp [stepBits, hdz]
        · intro st' h
          simp [stepByte, hdz] at h
      | some v0 =>
        by_cases hr : v0 = root
        · refine ⟨?_, ?_⟩
          · intro res h
            simp [stepByte, hr] at h
            subst h
            show stepBits sha ⟨[⟨p0, some v0⟩], r, pos, msb, hashes, bitsOf flags i,
              tx, root⟩ = _
            simp [stepBits, hr]
          · intro st' h
            simp [stepByte, hr] at h
        · refine ⟨?_, ?_⟩
          · intro res h
            simp [stepByte, hr] at h
            subst h
            show stepBits sha ⟨[⟨p0, some v0⟩], r, pos, msb, hashes, bitsOf flags i,
              tx, root⟩ = _
            simp [stepBits, hr]
          · intro st' h
            simp [stepByte, hr] at h
    · cases h0 with
      | none =>
        refine ⟨?_, ?_⟩
        · intro res h
          simp [stepByte, hdz, MakeMerkleParent] at h
          subst h
          show stepBits sha ⟨⟨p0, none⟩ :: ⟨p1, h1⟩ :: s2, r, pos, msb, hashes,
            bitsOf flags i, tx, root⟩ = _
          simp [stepBits, hdz, MakeMerkleParent]
        · intro st' h
          simp [stepByte, hdz, MakeMerkleParent] at h
      | some v0 =>
        refine ⟨?_, ?_⟩
        · intro res h
          simp [stepByte, hdz, MakeMerkleParent] at h
        · intro st' h
          simp [stepByte, hdz, MakeMerkleParent] at h
          subst h
          refine ⟨?_, hi, hfn⟩
          show stepBits sha ⟨⟨p0, some v0⟩ :: ⟨p1, h1⟩ :: s2, r, pos, msb, hashes,
            bitsOf flags i, tx, root⟩ = _
          simp [stepBits, hdz, MakeMerkleParent]
          rfl
  · -- live position: combine or draw.
    replace hdz : inDeadZone pos tx = false := by
      cases hv : inDeadZone pos tx
      · rfl
      · exact absurd hv hdz
    rcases s with _ | ⟨⟨p0, h0⟩, _ | ⟨⟨p1, h1⟩, _ | ⟨⟨p2, h2⟩, s3⟩⟩⟩
    · exact hdraw (Or.inl (Or.inl rfl)) hdz
    · cases h0 with
      | none => exact hdraw (Or.inl (Or.inr (Or.inl ⟨p0, [], rfl⟩))) hdz
      | some v0 =>
        by_cases hr : v0 = root
        · refine ⟨?_, ?_⟩
          · intro res h
            simp [stepByte, hr] at h
            subst h
            show stepBits sha ⟨[⟨p0, some v0⟩], r, pos, msb, hashes, bitsOf flags i,
              tx, root⟩ = _
            simp [stepBits, hr]
          · intro st' h
            simp [stepByte, hr] at h
        · refine ⟨?_, ?_⟩
          · intro res h
            simp [stepByte, hr] at h
            subst h
            show stepBits sha ⟨[⟨p0, some v0⟩], r, pos, msb, hashes, bitsOf flags i,
              tx, root⟩ = _
            simp [stepBits, hr]
          · intro st' h
            simp [stepByte, hr] at h
    · cases h0 with
      | none => exact hdraw (Or.inl (Or.inr (Or.inl ⟨p0, [⟨p1, h1⟩], rfl⟩))) hdz
      | some v0 =>
        cases h1 with
        | none =>
          exact hdraw (Or.inl (Or.inr (Or.inr ⟨p0, v0, p1, [], rfl⟩))) hdz
        | some v1 => exact hdraw (Or.inr ⟨p0, v0, p1, v1, rfl⟩) hdz
    · cases h0 with
      | none =>
        exact hdraw (Or.inl (Or.inr (Or.inl ⟨p0, ⟨p1, h1⟩ :: ⟨p2, h2⟩ :: s3, rfl⟩))) hdz
      | some v0 =>
        cases h1 with
        | none =>
          exact hdraw (Or.inl (Or.inr (Or.inr ⟨p0, v0, p1, ⟨p2, h2⟩ :: s3, rfl⟩))) hdz
        | some v1 =>
          -- combine
          by_cases hd : v1 = v0
          · refine ⟨?_, ?_⟩
            · intro res h
              simp [stepByte, hdz, MakeMerkleParent, hd] at h
              subst h
              show stepBits sha ⟨⟨p0, some v0⟩ :: ⟨p1, some v1⟩ :: ⟨p2, h2⟩ :: s3, r,
                pos, msb, hashes, bitsOf flags i, tx, root⟩ = _
              simp [stepBits, hdz, MakeMerkleParent, hd]
            · intro st' h
              simp [stepByte, hdz, MakeMerkleParent, hd] at h
          · refine ⟨?_, ?_⟩
            · intro res h
              simp [stepByte, hdz, MakeMerkleParent, hd] at h
            · intro st' h
              simp [stepByte, hdz, MakeMerkleParent, hd] at h
              subst h
              refine ⟨?_, hi, hfn⟩
              show stepBits sha ⟨⟨p0, some v0⟩ :: ⟨p1, some v1⟩ :: ⟨p2, h2⟩ :: s3, r,
                pos, msb, hashes, bitsOf flags i, tx, root⟩ = _
              simp [stepBits, hdz, MakeMerkleParent, hd]
              rfl

/-- The byte-machine loop computes the same result as the bit-machine loop
started on the `toB` view, for any well-formed cursor. -/
theorem checkLoop_eq_checkLoopB {α : Type} [DecidableEq α] (sha : α → α → α)
    (st : CheckState α) (hwf : WfFlags st) :
    checkLoop sha st = checkLoopB sha (toB st) := by
  generalize hm : measByte st = m
  induction m using Nat.strong_induction_on generalizing st with
  | _ m ih =>
    rw [checkLoop_eq, checkLoopB_eq]
    obtain ⟨hinl, hinr⟩ := stepByte_toB sha st hwf
    match hstep : stepByte sha st with
    | .inl res => rw [hinl res hstep]
    | .inr st' =>
      obtain ⟨hbstep, hwf'⟩ := hinr st' hstep
      rw [hbstep]
      exact ih (measByte st') (hm ▸ stepByte_decreases hstep) st' hwf' rfl

/-! ### Position arithmetic for the merkle traversal

The loop's `pos` encodes "height `h`, index `idx` within the row" (leaves
at height 0) as `idx + 2^(d+1) - 2^(d+1-h)` where `d = treeDepth tx`.
The lemmas below translate the loop's bit tricks on positions into this
coordinate form. -/

def nodePos (d h idx : Nat) : Nat := idx + 2 ^ (d + 1) - 2 ^ (d + 1 - h)

theorem two_pow_sub_succ {d h : Nat} (hh : h ≤ d) :
    2 ^ (d + 1 - h) = 2 * 2 ^ (d - h) := by
  have he : d + 1 - h = (d - h) + 1 := by omega
  rw [he, pow_succ]
  ring

theorem two_pow_le_two_pow {a b : Nat} (h : a ≤ b) : (2 : Nat) ^ a ≤ 2 ^ b :=
  Nat.pow_le_pow_right (by omega) h

/-- `x ||| 2^d = 2^d + x` for `x < 2^d`. -/
theorem or_two_pow_of_lt {x d : Nat} (h : x < 2 ^ d) : x ||| 2 ^ d = 2 ^ d + x := by
  have h2 := Nat.mul_add_lt_is_or h 1
  rw [Nat.mul_one] at h2
  rw [Nat.lor_comm]
  exact h2.symm

theorem or_one_of_even {x : Nat} (h : x % 2 = 0) : x ||| 1 = x + 1 := by
  obtain ⟨m, rfl⟩ : ∃ m, x = 2 * m := ⟨x / 2, by omega⟩
  have h2 : 2 * m + 1 = 2 * m ||| 1 := by
    simpa using Nat.mul_add_lt_is_or (show (1 : Nat) < 2 ^ 1 by decide) m
  exact h2.symm

theorem or_one_of_odd {x : Nat} (h : x % 2 = 1) : x ||| 1 = x := by
  obtain ⟨m, rfl⟩ : ∃ m, x = 2 * m + 1 := ⟨x / 2, by omega⟩
  have h2 : 2 * m + 1 = 2 * m ||| 1 := by
    simpa using Nat.mul_add_lt_is_or (show (1 : Nat) < 2 ^ 1 by decide) m
  rw [h2, Nat.lor_assoc]
  have h11 : (1 : Nat) ||| 1 = 1 := by decide
  rw [h11]

theorem xor_two_pow_high {y d : Nat} (h : y < 2 ^ d) : (2 ^ d + y) ^^^ 2 ^ d = y := by
  have h1 : 2 ^ d + y = y ||| 2 ^ d := (or_two_pow_of_lt h).symm
  apply Nat.eq_of_testBit_eq
  intro i
  rw [h1, Nat.testBit_xor, Nat.testBit_lor]
  by_cases hi : d = i
  · subst hi
    rw [Nat.testBit_two_pow]
    simp [Nat.testBit_lt_two_pow h]
  · rw [Nat.testBit_two_pow]
    simp [hi]

theorem and_two_pow_of_lt {x d : Nat} (h : x < 2 ^ d) : x &&& 2 ^ d = 0 := by
  rw [Nat.and_two_pow, Nat.testBit_lt_two_pow h]
  simp

theorem and_two_pow_of_high {x d : Nat} (h1 : 2 ^ d ≤ x) (h2 : x < 2 ^ (d + 1)) :
    x &&& 2 ^ d = 2 ^ d := by
  rw [Nat.and_two_pow]
  have hp : (0 : Nat) < 2 ^ d := pow_pos (by omega) d
  have hdiv1 : 1 ≤ x / 2 ^ d := (Nat.le_div_iff_mul_le hp).mpr (by omega)
  have hdiv2 : x / 2 ^ d < 2 := by
    apply Nat.div_lt_of_lt_mul
    rw [pow_succ] at h2
    omega
  have ht : x.testBit d = true := by
    rw [Nat.testBit_to_div_mod]
    have hq : x / 2 ^ d = 1 := by omega
    rw [hq]
    decide
  rw [ht]
  simp

theorem shiftRight_one (x : Nat) : x >>> 1 = x / 2 := by
  rw [Nat.shiftRight_eq_div_pow]

theorem shiftLeft_one (x : Nat) : x <<< 1 = 2 * x := by
  rw [Nat.shiftLeft_eq]
  ring

theorem nodePos_zero (d idx : Nat) : nodePos d 0 idx = idx := by
  rw [nodePos, Nat.sub_zero]
  omega

theorem nodePos_succ_idx (d h idx : Nat) :
    nodePos d h (idx + 1) = nodePos d h idx + 1 := by
  rw [nodePos, nodePos]
  have := two_pow_le_two_pow (show d + 1 - h ≤ d + 1 by omega)
  omega

theorem nodePos_lt_next {d h idx : Nat} (hh : h ≤ d) (hidx : idx < 2 ^ (d - h)) :
    nodePos d h idx < nodePos d (h + 1) 0 := by
  rw [nodePos, nodePos]
  have e1 : 2 ^ (d + 1 - h) = 2 * 2 ^ (d - h) := two_pow_sub_succ hh
  have e2 : d + 1 - (h + 1) = d - h := by omega
  rw [e1, e2]
  have h3 : 2 * 2 ^ (d - h) ≤ 2 ^ (d + 1) := by
    rw [← e1]
    exact two_pow_le_two_pow (by omega)
  omega

theorem nodePos_level_mono {d h1 h2 : Nat} (hle : h1 ≤ h2) :
    nodePos d h1 0 ≤ nodePos d h2 0 := by
  rw [nodePos, nodePos]
  have h3 := two_pow_le_two_pow (show d + 1 - h2 ≤ d + 1 - h1 by omega)
  have h4 := two_pow_le_two_pow (show d + 1 - h1 ≤ d + 1 by omega)
  omega

theorem nodePos_le_mono {d h a b : Nat} (hab : a ≤ b) :
    nodePos d h a ≤ nodePos d h b := by
  rw [nodePos, nodePos]
  have := two_pow_le_two_pow (show d + 1 - h ≤ d + 1 by omega)
  omega

theorem nodePos_gt_iff (d h a b : Nat) : (nodePos d h a > nodePos d h b) ↔ a > b := by
  rw [nodePos, nodePos]
  have := two_pow_le_two_pow (show d + 1 - h ≤ d + 1 by omega)
  omega

theorem nodePos_parity {d h idx : Nat} (hh : h ≤ d) :
    nodePos d h idx % 2 = idx % 2 := by
  rw [nodePos, two_pow_sub_succ hh]
  have e : 2 ^ (d + 1) = 2 * 2 ^ d := by
    rw [pow_succ]
    ring
  rw [e]
  have := two_pow_le_two_pow (show d - h ≤ d by omega)
  omega

theorem nodePos_parent {d h idx : Nat} (hh : h ≤ d) (hidx : idx < 2 ^ (d - h)) :
    nodePos d h idx >>> 1 ||| 2 ^ d = nodePos d (h + 1) (idx / 2) := by
  rw [shiftRight_one]
  have e1 : 2 ^ (d + 1 - h) = 2 * 2 ^ (d - h) := two_pow_sub_succ hh
  have e2 : 2 ^ (d + 1) = 2 * 2 ^ d := by
    rw [pow_succ]
    ring
  have hy : 2 ^ (d - h) ≤ 2 ^ d := two_pow_le_two_pow (by omega)
  have hv : nodePos d h idx / 2 = idx / 2 + 2 ^ d - 2 ^ (d - h) := by
    rw [nodePos, e1, e2]
    omega
  rw [hv]
  have hlt : idx / 2 + 2 ^ d - 2 ^ (d - h) < 2 ^ d := by omega
  rw [or_two_pow_of_lt hlt, nodePos]
  have e3 : d + 1 - (h + 1) = d - h := by omega
  rw [e3, e2]
  omega

theorem nodePos_descend {d h idx : Nat} (hh : h + 1 ≤ d)
    (hidx : idx < 2 ^ (d - (h + 1))) :
    (nodePos d (h + 1) idx ^^^ 2 ^ d) <<< 1 = nodePos d h (2 * idx) := by
  have e2 : 2 ^ (d + 1) = 2 * 2 ^ d := by
    rw [pow_succ]
    ring
  have e3 : d + 1 - (h + 1) = d - h := by omega
  have e1 : 2 ^ (d - h) = 2 * 2 ^ (d - (h + 1)) := by
    have hdh : d - h = (d - (h + 1)) + 1 := by omega
    rw [hdh, pow_succ]
    ring
  have hy : 2 ^ (d - (h + 1)) ≤ 2 ^ d := two_pow_le_two_pow (by omega)
  have hy2 : 2 * 2 ^ (d - (h + 1)) ≤ 2 ^ d := by
    rw [← e1]
    exact two_pow_le_two_pow (by omega)
  have hP : nodePos d (h + 1) idx = 2 ^ d + (idx + 2 ^ d - 2 ^ (d - h)) := by
    rw [nodePos, e3, e2, e1]
    omega
  have hlt : idx + 2 ^ d - 2 ^ (d - h) < 2 ^ d := by
    rw [e1]
    omega
  rw [hP, xor_two_pow_high hlt, shiftLeft_one, nodePos,
    two_pow_sub_succ (show h ≤ d by omega), e2, e1]
  omega

theorem nodePos_and_msb_high {d h idx : Nat} (hh1 : 1 ≤ h) (hh : h ≤ d)
    (hidx : idx < 2 ^ (d - h)) : nodePos d h idx &&& 2 ^ d = 2 ^ d := by
  apply and_two_pow_of_high
  · rw [nodePos, two_pow_sub_succ hh]
    have e2 : 2 ^ (d + 1) = 2 * 2 ^ d := by
      rw [pow_succ]
      ring
    have h4 : 2 ^ (d - h) * 2 ≤ 2 ^ d := by
      rw [← pow_succ]
      exact two_pow_le_two_pow (by omega)
    rw [e2]
    omega
  · rw [nodePos]
    have h6 : 2 ^ (d - h) ≤ 2 ^ d := two_pow_le_two_pow (by omega)
    have h7 := two_pow_sub_succ hh
    omega

theorem nodePos_and_msb_leaf {d idx : Nat} (hidx : idx < 2 ^ d) :
    nodePos d 0 idx &&& 2 ^ d = 0 := by
  rw [nodePos_zero]
  exact and_two_pow_of_lt hidx

theorem treeDepthAux_le (n : Nat) : ∀ (fuel e : Nat), n ≤ 2 ^ (e + fuel) →
    n ≤ 2 ^ treeDepthAux n fuel e := by
  intro fuel
  induction fuel with
  | zero =>
    intro e h
    rw [treeDepthAux]
    simpa using h
  | succ f ih =>
    intro e h
    rw [treeDepthAux]
    by_cases hc : 1 <<< e < n
    · rw [if_pos hc]
      exact ih (e + 1) (by rw [show e + 1 + f = e + (f + 1) by omega]; exact h)
    · rw [if_neg hc]
      rw [Nat.one_shiftLeft] at hc
      omega

/-- `treeDepth` reaches at least the base-2 logarithm: `n ≤ 2^(treeDepth n)`. -/
theorem le_two_pow_treeDepth (n : Nat) : n ≤ 2 ^ treeDepth n := by
  rw [treeDepth]
  exact treeDepthAux_le n n 0 (by simpa using Nat.le_of_lt (Nat.lt_two_pow n))

theorem nextPowerOfTwo_eq (n : Nat) : nextPowerOfTwo n = 2 ^ treeDepth n := by
  rw [nextPowerOfTwo, Nat.one_shiftLeft]

theorem nodePos_one_zero (d : Nat) : nodePos d 1 0 = 2 ^ d := by
  rw [nodePos]
  have e : d + 1 - 1 = d := by omega
  have e2 : 2 ^ (d + 1) = 2 * 2 ^ d := by
    rw [pow_succ]
    ring
  rw [e, e2]
  omega

theorem nodePos_top (d : Nat) : nodePos d (d + 1) 0 = 2 ^ (d + 1) - 1 := by
  rw [nodePos]
  have e : d + 1 - (d + 1) = 0 := by omega
  rw [e, pow_zero]
  omega

theorem nodePos_root (d : Nat) : nodePos d d 0 = 2 ^ (d + 1) - 2 := by
  rw [nodePos]
  have e : d + 1 - d = 1 := by omega
  rw [e, pow_one]
  omega

/-- The `inDeadZone` ascent: started at row `j` with the row-`j` forms of
its `h` and `last` variables, it answers whether `idx` lies beyond the last
populated slot `(n-1)/2^h` of row `h`. -/
theorem dzLoop_spec {n d : Nat} (hn : 1 ≤ n) (hd : n ≤ 2 ^ d) {h idx : Nat}
    (hh : h ≤ d) (hidx : idx < 2 ^ (d - h)) :
    ∀ (fuel j : Nat), j ≤ h → h - j < fuel →
      dzLoop (2 ^ d) fuel (nodePos d h idx) (nodePos d (j + 1) 0)
          (nodePos d j ((n - 1) / 2 ^ j)) =
        decide ((n - 1) / 2 ^ h < idx) := by
  intro fuel
  induction fuel with
  | zero =>
    intro j hj hfj
    omega
  | succ f ih =>
    intro j hj hfj
    rw [dzLoop]
    by_cases hjh : j < h
    · have hge : nodePos d h idx ≥ nodePos d (j + 1) 0 :=
        le_trans (nodePos_level_mono (by omega)) (nodePos_le_mono (Nat.zero_le idx))
      rw [if_pos hge]
      have hlast_lt : (n - 1) / 2 ^ j < 2 ^ (d - j) := by
        have hp : (0 : Nat) < 2 ^ j := pow_pos (by omega) j
        rw [Nat.div_lt_iff_lt_mul hp, ← pow_add]
        have e : d - j + j = d := by omega
        rw [e]
        omega
      have h1 : nodePos d (j + 1) 0 >>> 1 ||| 2 ^ d = nodePos d (j + 1 + 1) 0 := by
        have hpar := nodePos_parent (show j + 1 ≤ d by omega)
          (pow_pos (by omega : (0 : Nat) < 2) (d - (j + 1)))
        simpa using hpar
      have h2 : nodePos d j ((n - 1) / 2 ^ j) >>> 1 ||| 2 ^ d
          = nodePos d (j + 1) ((n - 1) / 2 ^ (j + 1)) := by
        have hpar := nodePos_parent (show j ≤ d by omega) hlast_lt
        rw [hpar]
        congr 1
        rw [Nat.div_div_eq_div_mul, ← pow_succ]
      rw [h1, h2]
      exact ih (j + 1) (by omega) (by omega)
    · have hj' : j = h := by omega
      subst hj'
      have hlt : nodePos d j idx < nodePos d (j + 1) 0 := nodePos_lt_next hh hidx
      rw [if_neg (by omega)]
      exact decide_eq_decide.mpr (nodePos_gt_iff d j idx ((n - 1) / 2 ^ j))

/-- `inDeadZone`, evaluated at a row-`h` position of the tree over
`d = treeDepth n`: it holds exactly when the slot index exceeds the last
populated slot `(n-1)/2^h` of the row. -/
theorem inDeadZone_eq {n h idx : Nat} (hn : 1 ≤ n) (hh : h ≤ treeDepth n)
    (hidx : idx < 2 ^ (treeDepth n - h)) :
    inDeadZone (nodePos (treeDepth n) h idx) n =
      decide ((n - 1) / 2 ^ h < idx) := by
  have hd : n ≤ 2 ^ treeDepth n := le_two_pow_treeDepth n
  rw [inDeadZone, nextPowerOfTwo_eq, shiftLeft_one]
  have hub : nodePos (treeDepth n) h idx ≤ 2 ^ (treeDepth n + 1) - 2 := by
    have h1 := nodePos_lt_next hh hidx
    have h2 : nodePos (treeDepth n) (h + 1) 0 ≤ nodePos (treeDepth n) (treeDepth n + 1) 0 :=
      nodePos_level_mono (by omega)
    have h3 := nodePos_top (treeDepth n)
    omega
  rw [if_neg (by omega)]
  have hfuel : h < nodePos (treeDepth n) h idx + 2 := by
    have hp1 : 2 ^ h + 2 ^ (treeDepth n + 1 - h) ≤ 2 ^ (treeDepth n + 1) + 1 := by
      rcases Nat.eq_zero_or_pos h with rfl | hpos
      · simp
        omega
      · have b1 : 2 ^ h ≤ 2 ^ treeDepth n := two_pow_le_two_pow (by omega)
        have b2 : 2 ^ (treeDepth n + 1 - h) ≤ 2 ^ treeDepth n :=
          two_pow_le_two_pow (by omega)
        omega
    have hlow : 2 ^ h - 1 ≤ nodePos (treeDepth n) h idx := by
      rw [nodePos]
      omega
    have hfin : h < 2 ^ h := Nat.lt_two_pow h
    omega
  have hstart := dzLoop_spec hn hd hh hidx (nodePos (treeDepth n) h idx + 2) 0
    (by omega) (by omega)
  rw [nodePos_one_zero] at hstart
  rw [pow_zero, Nat.div_one, nodePos_zero] at hstart
  exact hstart

/-! ### The merkle-block generator

The generator side of C1 (`MBlock` with `CalcTreeWidth`, `CalcHash`,
`TraverseAndBuild`, used by `run` in the merkle test) is not among the
source files; the definitions below are modelled from the spec:
depth-first over the tree of `⌈n/2^height⌉`-wide rows, each node emits the
"any matched leaf below" flag bit; a node with bit 0, or a leaf, emits its
hash and stops; an inner node with bit 1 recurses into its children (the
right child only when the row is wide enough, otherwise the verifier's
dead-zone duplication covers it).  The test's glue code (`run`,
part_005) packs the bits LSB-first via `Flags[i/8] |= Bits[i] << (i%8)`
and takes the header root from `CalcHash(treeDepth(txs), 0)`. -/

/-- Modelled from the spec: `CalcTreeWidth` — the number of nodes of the
row at `height`, `⌈n / 2^height⌉`. -/
def CalcTreeWidth (n height : Nat) : Nat := (n + 2 ^ height - 1) / 2 ^ height

/-- Modelled from the spec: `CalcHash` — the merkle hash of node
`(height, idx)` over leaf hashes `leaves`; a missing right child is
replaced by a duplicate of the left child. -/
def CalcHash {α : Type} (sha : α → α → α) (leaves : Nat → α) (n : Nat) :
    Nat → Nat → α
  | 0, idx => leaves idx
  | height + 1, idx =>
    if 2 * idx + 1 < CalcTreeWidth n height then
      sha (CalcHash sha leaves n height (2 * idx))
        (CalcHash sha leaves n height (2 * idx + 1))
    else
      sha (CalcHash sha leaves n height (2 * idx))
        (CalcHash sha leaves n height (2 * idx))

/-- The leaf slots below node `(height, idx)` (some may lie beyond the
`n`-th transaction). -/
def leafSlots (height idx : Nat) : List Nat :=
  (List.range (2 ^ height)).map (fun k => idx * 2 ^ height + k)

/-- Modelled from the spec: whether any matched transaction lies below
node `(height, idx)` — the flag bit `TraverseAndBuild` emits. -/
def subMatch (matched : Nat → Bool) (n height idx : Nat) : Bool :=
  (leafSlots height idx).any (fun j => decide (j < n) && matched j)

/-- The txids of the matched transactions below node `(height, idx)`, in
leaf order. -/
def matchedUnder {α : Type} (leaves : Nat → α) (matched : Nat → Bool)
    (n height idx : Nat) : List α :=
  ((leafSlots height idx).filter (fun j => decide (j < n) && matched j)).map leaves

/-- Modelled from the spec: `TraverseAndBuild` — the depth-first flag-bit
and hash streams of the partial merkle tree rooted at `(height, idx)`. -/
def TraverseAndBuild {α : Type} (sha : α → α → α) (leaves : Nat → α)
    (matched : Nat → Bool) (n : Nat) : Nat → Nat → List Bool × List α
  | 0, idx => ([subMatch matched n 0 idx], [CalcHash sha leaves n 0 idx])
  | height + 1, idx =>
    if subMatch matched n (height + 1) idx then
      if 2 * idx + 1 < CalcTreeWidth n height then
        (true :: ((TraverseAndBuild sha leaves matched n height (2 * idx)).1 ++
            (TraverseAndBuild sha leaves matched n height (2 * idx + 1)).1),
          (TraverseAndBuild sha leaves matched n height (2 * idx)).2 ++
            (TraverseAndBuild sha leaves matched n height (2 * idx + 1)).2)
      else
        (true :: (TraverseAndBuild sha leaves matched n height (2 * idx)).1,
          (TraverseAndBuild sha leaves matched n height (2 * idx)).2)
    else ([false], [CalcHash sha leaves n (height + 1) idx])

/-- The value of up to eight flag bits, least significant first. -/
def byteVal (bs : List Bool) : Nat :=
  bs.foldr (fun b acc => 2 * acc + (if b then 1 else 0)) 0

/-- `Flags[i/8] |= Bits[i] << (i % 8)` — the test's bit packing,
fuel-indexed for structural recursion (the fuel is the list length). -/
def packBitsF : Nat → List Bool → List Nat
  | 0, _ => []
  | _, [] => []
  | fuel + 1, bits => byteVal (bits.take 8) :: packBitsF fuel (bits.drop 8)

/-- Pack the flag bits LSB-first into bytes, zero-padding the last one. -/
def packBits (bits : List Bool) : List Nat := packBitsF bits.length bits

/-- Modelled from the spec: the merkle block the generator (`run` of the
merkle test) assembles for `n` transactions with leaf hashes `leaves` and
matched subset `matched`. -/
def buildMerkleBlock {α : Type} (sha : α → α → α) (leaves : Nat → α)
    (matched : Nat → Bool) (n : Nat) : MerkleBlock α :=
  { MerkleRoot := CalcHash sha leaves n (treeDepth n) 0
    Transactions := n
    Hashes := (TraverseAndBuild sha leaves matched n (treeDepth n) 0).2
    Flags := packBits (TraverseAndBuild sha leaves matched n (treeDepth n) 0).1 }

/-- The txids of the matched transactions, in leaf order. -/
def matchedIds {α : Type} (leaves : Nat → α) (matched : Nat → Bool) (n : Nat) :
    List α :=
  ((List.range n).filter matched).map leaves

/-! ### Row widths and builder stream facts -/

theorem CalcTreeWidth_eq {n : Nat} (h : Nat) (hn : 1 ≤ n) :
    CalcTreeWidth n h = (n - 1) / 2 ^ h + 1 := by
  rw [CalcTreeWidth]
  have hp : (0 : Nat) < 2 ^ h := pow_pos (by omega) h
  have e : n + 2 ^ h - 1 = (n - 1) + 2 ^ h := by omega
  rw [e, Nat.add_div_right]
  exact hp

theorem CalcTreeWidth_zero (n : Nat) : CalcTreeWidth n 0 = n := by
  rw [CalcTreeWidth, pow_zero]
  omega

theorem slot_lt_pow {n d h : Nat} (hd : n ≤ 2 ^ d) (hh : h ≤ d) :
    (n - 1) / 2 ^ h < 2 ^ (d - h) := by
  have hp : (0 : Nat) < 2 ^ h := pow_pos (by omega) h
  rw [Nat.div_lt_iff_lt_mul hp, ← pow_add]
  have e : d - h + h = d := by omega
  rw [e]
  have : (1 : Nat) ≤ 2 ^ d := Nat.one_le_two_pow
  omega

theorem CalcTreeWidth_top {n d : Nat} (hn : 1 ≤ n) (hd : n ≤ 2 ^ d) :
    CalcTreeWidth n d = 1 := by
  rw [CalcTreeWidth_eq d hn]
  have h0 : (n - 1) / 2 ^ d = 0 := Nat.div_eq_of_lt (by omega)
  rw [h0]

theorem CalcTreeWidth_left_child {n h idx : Nat} (hn : 1 ≤ n)
    (hidx : idx < CalcTreeWidth n (h + 1)) : 2 * idx < CalcTreeWidth n h := by
  rw [CalcTreeWidth_eq (h + 1) hn] at hidx
  rw [CalcTreeWidth_eq h hn]
  have e : (n - 1) / 2 ^ (h + 1) = (n - 1) / 2 ^ h / 2 := by
    rw [Nat.div_div_eq_div_mul, ← pow_succ]
  rw [e] at hidx
  omega

theorem CalcTreeWidth_no_right {n h idx : Nat} (hn : 1 ≤ n)
    (hnr : ¬2 * idx + 1 < CalcTreeWidth n h) : (n - 1) / 2 ^ h < 2 * idx + 1 := by
  rw [CalcTreeWidth_eq h hn] at hnr
  omega

theorem no_right_dead {n h idx : Nat} (hn : 1 ≤ n)
    (hnr : ¬2 * idx + 1 < CalcTreeWidth n h) : n ≤ (2 * idx + 1) * 2 ^ h := by
  have h1 := CalcTreeWidth_no_right hn hnr
  have hp : (0 : Nat) < 2 ^ h := pow_pos (by omega) h
  rw [Nat.div_lt_iff_lt_mul hp] at h1
  omega

theorem leafSlots_split (height idx : Nat) :
    leafSlots (height + 1) idx =
      leafSlots height (2 * idx) ++ leafSlots height (2 * idx + 1) := by
  rw [leafSlots, leafSlots, leafSlots]
  have e : 2 ^ (height + 1) = 2 ^ height + 2 ^ height := by
    rw [pow_succ]
    omega
  rw [e, List.range_add, List.map_append, List.map_map]
  congr 1
  · apply List.map_congr_left
    intro k _
    ring_nf
  · apply List.map_congr_left
    intro k _
    show idx * (2 ^ height + 2 ^ height) + (2 ^ height + k) = _
    ring_nf

theorem matchedUnder_split {α : Type} (leaves : Nat → α) (matched : Nat → Bool)
    (n height idx : Nat) :
    matchedUnder leaves matched n (height + 1) idx =
      matchedUnder leaves matched n height (2 * idx) ++
        matchedUnder leaves matched n height (2 * idx + 1) := by
  rw [matchedUnder, matchedUnder, matchedUnder, leafSlots_split,
    List.filter_append, List.map_append]

theorem subMatch_split (matched : Nat → Bool) (n height idx : Nat) :
    subMatch matched n (height + 1) idx =
      (subMatch matched n height (2 * idx) || subMatch matched n height (2 * idx + 1)) := by
  rw [subMatch, subMatch, subMatch, leafSlots_split, List.any_append]

theorem matchedUnder_of_not_subMatch {α : Type} (leaves : Nat → α)
    (matched : Nat → Bool) {n height idx : Nat}
    (hsm : subMatch matched n height idx = false) :
    matchedUnder leaves matched n height idx = [] := by
  rw [subMatch, List.any_eq_false] at hsm
  rw [matchedUnder, List.filter_eq_nil_iff.mpr hsm, List.map_nil]

theorem matchedUnder_of_dead {α : Type} (leaves : Nat → α) (matched : Nat → Bool)
    {n height idx : Nat} (hdead : n ≤ idx * 2 ^ height) :
    matchedUnder leaves matched n height idx = [] := by
  rw [matchedUnder, List.filter_eq_nil_iff.mpr, List.map_nil]
  intro a ha
  rw [leafSlots] at ha
  simp only [List.mem_map, List.mem_range] at ha
  obtain ⟨k, hk, rfl⟩ := ha
  simp only [Bool.and_eq_true, decide_eq_true_eq, not_and]
  intro hlt
  omega

theorem leafSlots_leaf (idx : Nat) : leafSlots 0 idx = [idx] := by
  rw [leafSlots, pow_zero, show List.range 1 = [0] from rfl]
  simp

theorem subMatch_leaf (matched : Nat → Bool) (n idx : Nat) :
    subMatch matched n 0 idx = (decide (idx < n) && matched idx) := by
  rw [subMatch, leafSlots_leaf]
  simp

theorem matchedUnder_leaf {α : Type} (leaves : Nat → α) (matched : Nat → Bool)
    (n idx : Nat) :
    matchedUnder leaves matched n 0 idx =
      if decide (idx < n) && matched idx then [leaves idx] else [] := by
  rw [matchedUnder, leafSlots_leaf]
  by_cases hc : decide (idx < n) && matched idx
  · rw [if_pos hc]
    simp only [List.filter_cons, hc, if_true, List.filter_nil, List.map_cons,
      List.map_nil]
  · rw [if_neg hc]
    simp only [List.filter_cons]
    rw [if_neg hc]
    rfl

theorem matchedUnder_top {α : Type} (leaves : Nat → α) (matched : Nat → Bool)
    {n d : Nat} (hd : n ≤ 2 ^ d) :
    matchedUnder leaves matched n d 0 = matchedIds leaves matched n := by
  rw [matchedUnder, matchedIds, leafSlots]
  have e1 : (List.range (2 ^ d)).map (fun k => 0 * 2 ^ d + k) = List.range (2 ^ d) := by
    rw [show (fun k => 0 * 2 ^ d + k) = @id Nat from funext fun k => by simp,
      List.map_id]
  rw [e1]
  have e2 : 2 ^ d = n + (2 ^ d - n) := by omega
  rw [e2, List.range_add, List.filter_append]
  have e3 : List.filter (fun j => decide (j < n) && matched j) (List.range n) =
      List.filter matched (List.range n) := by
    apply List.filter_congr
    intro j hj
    rw [List.mem_range] at hj
    simp [hj]
  have e4 : List.filter (fun j => decide (j < n) && matched j)
      (List.map (fun x => n + x) (List.range (2 ^ d - n))) = [] := by
    apply List.filter_eq_nil_iff.mpr
    intro a ha
    simp only [List.mem_map, List.mem_range] at ha
    obtain ⟨k, hk, rfl⟩ := ha
    simp only [Bool.and_eq_true, decide_eq_true_eq, not_and]
    intro hlt
    omega
  rw [e3, e4, List.append_nil]

theorem traverse_bits_ne_nil {α : Type} (sha : α → α → α) (leaves : Nat → α)
    (matched : Nat → Bool) (n : Nat) :
    ∀ height idx, (TraverseAndBuild sha leaves matched n height idx).1 ≠ [] := by
  intro height idx
  cases height with
  | zero =>
    rw [TraverseAndBuild]
    exact List.cons_ne_nil _ _
  | succ h =>
    rw [TraverseAndBuild]
    split
    · split
      · exact List.cons_ne_nil _ _
      · exact List.cons_ne_nil _ _
    · exact List.cons_ne_nil _ _

theorem traverse_hashes_ne_nil {α : Type} (sha : α → α → α) (leaves : Nat → α)
    (matched : Nat → Bool) (n : Nat) :
    ∀ height idx, (TraverseAndBuild sha leaves matched n height idx).2 ≠ [] := by
  intro height
  induction height with
  | zero =>
    intro idx
    rw [TraverseAndBuild]
    exact List.cons_ne_nil _ _
  | succ h ih =>
    intro idx
    rw [TraverseAndBuild]
    split
    · split
      · intro hc
        rw [List.append_eq_nil] at hc
        exact ih (2 * idx) hc.1
      · exact ih (2 * idx)
    · exact List.cons_ne_nil _ _

/-! ### Single-step forms of the bit machine -/

theorem stepBits_leaf {α : Type} [DecidableEq α] (sha : α → α → α)
    (S : List (merkleNode α)) (r : List α) (pos msb : Nat) (hh : α) (htl : List α)
    (b : Bool) (btl : List Bool) (tx : Nat) (root : α)
    (hS : noStackOp S) (hdz : inDeadZone pos tx = false)
    (hpm : pos &&& msb = 0) (hpt : pos < tx) :
    stepBits sha ⟨S, r, pos, msb, hh :: htl, b :: btl, tx, root⟩ =
      .inr ⟨⟨pos, some hh⟩ :: S, (if b then r ++ [hh] else r), 
        (if pos &&& 1 = 0 then pos ||| 1 else pos), msb, htl, btl, tx, root⟩ := by
  rw [stepBits_eq_drawBits sha _ (Or.inl hS) hdz, drawBits]
  simp only [reduceCtorEq, if_false, hpm, ne_eq, not_true_eq_false, if_true]
  rw [if_neg (by omega)]

theorem stepBits_fill {α : Type} [DecidableEq α] (sha : α → α → α)
    (S : List (merkleNode α)) (r : List α) (pos msb : Nat) (hh : α) (htl : List α)
    (btl : List Bool) (tx : Nat) (root : α)
    (hS : noStackOp S) (hdz : inDeadZone pos tx = false)
    (hpm : pos &&& msb ≠ 0) :
    stepBits sha ⟨S, r, pos, msb, hh :: htl, false :: btl, tx, root⟩ =
      .inr ⟨⟨pos, some hh⟩ :: S, r,
        (if pos &&& 1 ≠ 0 then pos >>> 1 ||| msb else pos ||| 1), msb, htl, btl,
        tx, root⟩ := by
  rw [stepBits_eq_drawBits sha _ (Or.inl hS) hdz, drawBits]
  simp only [reduceCtorEq, if_false, hpm, ne_eq, not_false_eq_true, if_true]

theorem stepBits_descend {α : Type} [DecidableEq α] (sha : α → α → α)
    (S : List (merkleNode α)) (r : List α) (pos msb : Nat) (hh : α) (htl : List α)
    (btl : List Bool) (tx : Nat) (root : α)
    (hS : noStackOp S) (hdz : inDeadZone pos tx = false)
    (hpm : pos &&& msb ≠ 0) :
    stepBits sha ⟨S, r, pos, msb, hh :: htl, true :: btl, tx, root⟩ =
      .inr ⟨⟨pos, none⟩ :: S, r, (pos ^^^ msb) <<< 1, msb, hh :: htl, btl,
        tx, root⟩ := by
  rw [stepBits_eq_drawBits sha _ (Or.inl hS) hdz, drawBits]
  simp only [reduceCtorEq, if_false, hpm, ne_eq, not_false_eq_true, if_true]

theorem stepBits_combine {α : Type} [DecidableEq α] (sha : α → α → α)
    (pt : Nat) (ht : α) (pn : Nat) (hn2 : α) (pth : Nat) (hth : Option α)
    (rest : List (merkleNode α)) (r : List α) (pos msb : Nat) (hs : List α)
    (bits : List Bool) (tx : Nat) (root : α)
    (hdz : inDeadZone pos tx = false) (hneq : hn2 ≠ ht) :
    stepBits sha ⟨⟨pt, some ht⟩ :: ⟨pn, some hn2⟩ :: ⟨pth, hth⟩ :: rest, r, pos,
        msb, hs, bits, tx, root⟩ =
      .inr ⟨⟨pth, some (sha hn2 ht)⟩ :: rest, r, pth ||| 1, msb, hs, bits,
        tx, root⟩ := by
  simp [stepBits, hdz, MakeMerkleParent, hneq]

theorem stepBits_deadzone {α : Type} [DecidableEq α] (sha : α → α → α)
    (pt : Nat) (ht : α) (pn : Nat) (hn2 : Option α) (rest : List (merkleNode α))
    (r : List α) (pos msb : Nat) (hs : List α) (bits : List Bool) (tx : Nat)
    (root : α) (hdz : inDeadZone pos tx = true) :
    stepBits sha ⟨⟨pt, some ht⟩ :: ⟨pn, hn2⟩ :: rest, r, pos, msb, hs, bits,
        tx, root⟩ =
      .inr ⟨⟨pn, some (sha ht ht)⟩ :: rest, r, pn ||| 1, msb, hs, bits,
        tx, root⟩ := by
  simp [stepBits, hdz, MakeMerkleParent]

theorem stepBits_root_ok {α : Type} [DecidableEq α] (sha : α → α → α)
    (p : Nat) (v : α) (r : List α) (pos msb : Nat) (hs : List α)
    (bits : List Bool) (tx : Nat) :
    stepBits sha ⟨[⟨p, some v⟩], r, pos, msb, hs, bits, tx, v⟩ = .inl (.ok r) := by
  simp [stepBits]

/-! ### Simulation of the generator against the verifier -/

theorem valid_dz_false {n h idx : Nat} (hn : 1 ≤ n) (hh : h ≤ treeDepth n)
    (hidx : idx < CalcTreeWidth n h) :
    inDeadZone (nodePos (treeDepth n) h idx) n = false ∧
      idx < 2 ^ (treeDepth n - h) := by
  have hd : n ≤ 2 ^ treeDepth n := le_two_pow_treeDepth n
  have hslot : idx ≤ (n - 1) / 2 ^ h := by
    rw [CalcTreeWidth_eq h hn] at hidx
    omega
  have h2 : idx < 2 ^ (treeDepth n - h) := lt_of_le_of_lt hslot (slot_lt_pow hd hh)
  refine ⟨?_, h2⟩
  rw [inDeadZone_eq hn hh h2]
  exact decide_eq_false (by omega)

theorem dead_dz_true {n h idx : Nat} (hn : 1 ≤ n) (hh : h + 1 ≤ treeDepth n)
    (hidx : idx < CalcTreeWidth n (h + 1))
    (hnr : ¬2 * idx + 1 < CalcTreeWidth n h) :
    inDeadZone (nodePos (treeDepth n) h (2 * idx + 1)) n = true := by
  have h2 : idx < 2 ^ (treeDepth n - (h + 1)) := (valid_dz_false hn hh hidx).2
  have h3 : 2 * idx + 1 < 2 ^ (treeDepth n - h) := by
    have e1 : 2 ^ (treeDepth n - h) = 2 * 2 ^ (treeDepth n - (h + 1)) := by
      have e : treeDepth n - h = (treeDepth n - (h + 1)) + 1 := by omega
      rw [e, pow_succ]
      ring
    omega
  rw [inDeadZone_eq hn (by omega) h3]
  exact decide_eq_true (CalcTreeWidth_no_right hn hnr)

/-- **Subtree simulation.**  Started at a valid node position holding the
node's built bit and hash streams at the head of its inputs, the loop
consumes exactly those streams, pushes the node filled with the subtree's
merkle hash, appends the txids matched below it, and leaves `pos` one slot
to the right (even index) or at the node or its parent (odd index). -/
theorem traverse_sim {α : Type} [DecidableEq α] (sha : α → α → α)
    (leaves : Nat → α) (matched : Nat → Bool) (n : Nat) (hn : 1 ≤ n)
    (hnodup : ∀ h idx, h < treeDepth n → 2 * idx + 1 < CalcTreeWidth n h →
      CalcHash sha leaves n h (2 * idx) ≠ CalcHash sha leaves n h (2 * idx + 1)) :
    ∀ h idx, h ≤ treeDepth n → idx < CalcTreeWidth n h →
      ∀ (S : List (merkleNode α)) (r : List α) (restB : List Bool)
        (restH : List α) (root : α), noStackOp S →
        ∃ pos',
          ((idx % 2 = 0 ∧ pos' = nodePos (treeDepth n) h idx + 1) ∨
            (idx % 2 = 1 ∧ (pos' = nodePos (treeDepth n) h idx ∨
              pos' = nodePos (treeDepth n) (h + 1) (idx / 2)))) ∧
          checkLoopB sha
            { s := S
              r := r
              pos := nodePos (treeDepth n) h idx
              msb := 2 ^ treeDepth n
              hashes := (TraverseAndBuild sha leaves matched n h idx).2 ++ restH
              bits := (TraverseAndBuild sha leaves matched n h idx).1 ++ restB
              transactions := n
              root := root } =
          checkLoopB sha
            { s := ⟨nodePos (treeDepth n) h idx,
                some (CalcHash sha leaves n h idx)⟩ :: S
              r := r ++ matchedUnder leaves matched n h idx
              pos := pos'
              msb := 2 ^ treeDepth n
              hashes := restH
              bits := restB
              transactions := n
              root := root } := by
  intro h
  induction h with
  | zero =>
    intro idx hh hidx S r restB restH root hS
    obtain ⟨hdzf, hidx2⟩ := valid_dz_false hn hh hidx
    have hw0 := CalcTreeWidth_zero n
    have hpm : nodePos (treeDepth n) 0 idx &&& 2 ^ treeDepth n = 0 :=
      nodePos_and_msb_leaf (by simpa using hidx2)
    have hpt : nodePos (treeDepth n) 0 idx < n := by
      rw [nodePos_zero]
      omega
    have hT1 : (TraverseAndBuild sha leaves matched n 0 idx).1 =
        [decide (idx < n) && matched idx] := by
      rw [TraverseAndBuild, subMatch_leaf]
    have hT2 : (TraverseAndBuild sha leaves matched n 0 idx).2 = [leaves idx] := by
      rw [TraverseAndBuild, CalcHash]
    have hCH : CalcHash sha leaves n 0 idx = leaves idx := by rw [CalcHash]
    have hand1 : nodePos (treeDepth n) 0 idx &&& 1 = idx % 2 := by
      rw [Nat.and_one_is_mod, @nodePos_parity (treeDepth n) 0 idx (by omega)]
    have hstep := stepBits_leaf sha S r (nodePos (treeDepth n) 0 idx)
      (2 ^ treeDepth n) (leaves idx) restH (decide (idx < n) && matched idx) restB
      n root hS hdzf hpm hpt
    have hrw : (if (decide (idx < n) && matched idx) then r ++ [leaves idx]
        else r) = r ++ matchedUnder leaves matched n 0 idx := by
      rw [matchedUnder_leaf]
      by_cases hmb : (decide (idx < n) && matched idx) = true
      · rw [if_pos hmb, if_pos hmb]
      · rw [if_neg hmb, if_neg hmb, List.append_nil]
    refine ⟨if nodePos (treeDepth n) 0 idx &&& 1 = 0
      then nodePos (treeDepth n) 0 idx ||| 1 else nodePos (treeDepth n) 0 idx,
      ?_, ?_⟩
    · by_cases hpar : idx % 2 = 0
      · refine Or.inl ⟨hpar, ?_⟩
        rw [hand1, if_pos hpar,
          or_one_of_even (by rw [@nodePos_parity (treeDepth n) 0 idx (by omega)]; exact hpar)]
      · have hpar1 : idx % 2 = 1 := by omega
        refine Or.inr ⟨hpar1, Or.inl ?_⟩
        rw [hand1, if_neg (by omega)]
    · rw [hT1, hT2, List.singleton_append, List.singleton_append,
        checkLoopB_inr hstep, hrw, hCH]
  | succ h ih =>
    intro idx hh hidx S r restB restH root hS
    obtain ⟨hdzf, hidx2⟩ := valid_dz_false hn hh hidx
    have hpm : nodePos (treeDepth n) (h + 1) idx &&& 2 ^ treeDepth n
        = 2 ^ treeDepth n := nodePos_and_msb_high (by omega) hh hidx2
    have hpm2 : nodePos (treeDepth n) (h + 1) idx &&& 2 ^ treeDepth n ≠ 0 := by
      have hp : (0 : Nat) < 2 ^ treeDepth n := pow_pos (by omega) _
      omega
    have handP : nodePos (treeDepth n) (h + 1) idx &&& 1 = idx % 2 := by
      rw [Nat.and_one_is_mod, @nodePos_parity (treeDepth n) (h + 1) idx hh]
    have hParity : nodePos (treeDepth n) (h + 1) idx % 2 = idx % 2 :=
      @nodePos_parity (treeDepth n) (h + 1) idx hh
    by_cases hsm : subMatch matched n (h + 1) idx = true
    · by_cases hrc : 2 * idx + 1 < CalcTreeWidth n h
      · -- both children are traversed and combined
        have hT1 : (TraverseAndBuild sha leaves matched n (h + 1) idx).1 =
            true :: ((TraverseAndBuild sha leaves matched n h (2 * idx)).1 ++
              (TraverseAndBuild sha leaves matched n h (2 * idx + 1)).1) := by
          rw [TraverseAndBuild, if_pos hsm, if_pos hrc]
        have hT2 : (TraverseAndBuild sha leaves matched n (h + 1) idx).2 =
            (TraverseAndBuild sha leaves matched n h (2 * idx)).2 ++
              (TraverseAndBuild sha leaves matched n h (2 * idx + 1)).2 := by
          rw [TraverseAndBuild, if_pos hsm, if_pos hrc]
        obtain ⟨hx, htl, hL2⟩ := List.exists_cons_of_ne_nil
          (traverse_hashes_ne_nil sha leaves matched n h (2 * idx))
        have hstep1 := stepBits_descend sha S r
          (nodePos (treeDepth n) (h + 1) idx) (2 ^ treeDepth n) hx
          (htl ++ ((TraverseAndBuild sha leaves matched n h (2 * idx + 1)).2 ++ restH))
          ((TraverseAndBuild sha leaves matched n h (2 * idx)).1 ++
            ((TraverseAndBuild sha leaves matched n h (2 * idx + 1)).1 ++ restB))
          n root hS hdzf hpm2
        have hCH : CalcHash sha leaves n (h + 1) idx =
            sha (CalcHash sha leaves n h (2 * idx))
              (CalcHash sha leaves n h (2 * idx + 1)) := by
          rw [CalcHash, if_pos hrc]
        refine ⟨nodePos (treeDepth n) (h + 1) idx ||| 1, ?_, ?_⟩
        · by_cases hpar : idx % 2 = 0
          · exact Or.inl ⟨hpar, or_one_of_even (by rw [hParity]; exact hpar)⟩
          · have hpar1 : idx % 2 = 1 := by omega
            exact Or.inr ⟨hpar1, Or.inl (or_one_of_odd (by rw [hParity]; exact hpar1))⟩
        · rw [hT1, hT2, List.append_assoc, hL2, List.cons_append,
            List.cons_append, List.append_assoc, checkLoopB_inr hstep1,
            ← List.cons_append, ← hL2, nodePos_descend hh hidx2]
          obtain ⟨posL, hposL, hloopL⟩ := ih (2 * idx) (by omega)
            (CalcTreeWidth_left_child hn hidx)
            (⟨nodePos (treeDepth n) (h + 1) idx, none⟩ :: S) r
            ((TraverseAndBuild sha leaves matched n h (2 * idx + 1)).1 ++ restB)
            ((TraverseAndBuild sha leaves matched n h (2 * idx + 1)).2 ++ restH)
            root (Or.inr (Or.inl ⟨nodePos (treeDepth n) (h + 1) idx, S, rfl⟩))
          rw [hloopL]
          have hposL2 : posL = nodePos (treeDepth n) h (2 * idx) + 1 := by
            rcases hposL with ⟨_, hp⟩ | ⟨hodd, _⟩
            · exact hp
            · omega
          rw [hposL2, ← nodePos_succ_idx]
          obtain ⟨posR, hposR, hloopR⟩ := ih (2 * idx + 1) (by omega) hrc
            (⟨nodePos (treeDepth n) h (2 * idx),
                some (CalcHash sha leaves n h (2 * idx))⟩ ::
              ⟨nodePos (treeDepth n) (h + 1) idx, none⟩ :: S)
            (r ++ matchedUnder leaves matched n h (2 * idx)) restB restH root
            (Or.inr (Or.inr ⟨nodePos (treeDepth n) h (2 * idx),
              CalcHash sha leaves n h (2 * idx),
              nodePos (treeDepth n) (h + 1) idx, S, rfl⟩))
          rw [hloopR]
          have hposR2 : posR = nodePos (treeDepth n) h (2 * idx + 1) ∨
              posR = nodePos (treeDepth n) (h + 1) idx := by
            rcases hposR with ⟨heven, _⟩ | ⟨_, hp | hp⟩
            · omega
            · exact Or.inl hp
            · right
              rw [hp]
              congr 1
              omega
          have hdzL := (valid_dz_false hn (show h ≤ treeDepth n by omega) hrc).1
          have hneq : CalcHash sha leaves n h (2 * idx) ≠
              CalcHash sha leaves n h (2 * idx + 1) := hnodup h idx (by omega) hrc
          have hdzR : inDeadZone posR n = false := by
            rcases hposR2 with hp | hp
            · rw [hp]
              exact hdzL
            · rw [hp]
              exact hdzf
          have hstep2 := stepBits_combine sha
            (nodePos (treeDepth n) h (2 * idx + 1))
            (CalcHash sha leaves n h (2 * idx + 1))
            (nodePos (treeDepth n) h (2 * idx))
            (CalcHash sha leaves n h (2 * idx))
            (nodePos (treeDepth n) (h + 1) idx) none S
            ((r ++ matchedUnder leaves matched n h (2 * idx)) ++
              matchedUnder leaves matched n h (2 * idx + 1))
            posR (2 ^ treeDepth n) restH restB n root hdzR hneq
          rw [checkLoopB_inr hstep2, hCH, matchedUnder_split, ← List.append_assoc]
      · -- only the left child exists; the dead zone folds it into the parent
        have hT1 : (TraverseAndBuild sha leaves matched n (h + 1) idx).1 =
            true :: (TraverseAndBuild sha leaves matched n h (2 * idx)).1 := by
          rw [TraverseAndBuild, if_pos hsm, if_neg hrc]
        have hT2 : (TraverseAndBuild sha leaves matched n (h + 1) idx).2 =
            (TraverseAndBuild sha leaves matched n h (2 * idx)).2 := by
          rw [TraverseAndBuild, if_pos hsm, if_neg hrc]
        obtain ⟨hx, htl, hL2⟩ := List.exists_cons_of_ne_nil
          (traverse_hashes_ne_nil sha leaves matched n h (2 * idx))
        have hstep1 := stepBits_descend sha S r
          (nodePos (treeDepth n) (h + 1) idx) (2 ^ treeDepth n) hx
          (htl ++ restH)
          ((TraverseAndBuild sha leaves matched n h (2 * idx)).1 ++ restB)
          n root hS hdzf hpm2
        have hCH : CalcHash sha leaves n (h + 1) idx =
            sha (CalcHash sha leaves n h (2 * idx))
              (CalcHash sha leaves n h (2 * idx)) := by
          rw [CalcHash, if_neg hrc]
        refine ⟨nodePos (treeDepth n) (h + 1) idx ||| 1, ?_, ?_⟩
        · by_cases hpar : idx % 2 = 0
          · exact Or.inl ⟨hpar, or_one_of_even (by rw [hParity]; exact hpar)⟩
          · have hpar1 : idx % 2 = 1 := by omega
            exact Or.inr ⟨hpar1, Or.inl (or_one_of_odd (by rw [hParity]; exact hpar1))⟩
        · rw [hT1, hT2, hL2, List.cons_append, List.cons_append,
            checkLoopB_inr hstep1, ← List.cons_append, ← hL2,
            nodePos_descend hh hidx2]
          obtain ⟨posL, hposL, hloopL⟩ := ih (2 * idx) (by omega)
            (CalcTreeWidth_left_child hn hidx)
            (⟨nodePos (treeDepth n) (h + 1) idx, none⟩ :: S) r restB restH
            root (Or.inr (Or.inl ⟨nodePos (treeDepth n) (h + 1) idx, S, rfl⟩))
          rw [hloopL]
          have hposL2 : posL = nodePos (treeDepth n) h (2 * idx) + 1 := by
            rcases hposL with ⟨_, hp⟩ | ⟨hodd, _⟩
            · exact hp
            · omega
          rw [hposL2, ← nodePos_succ_idx]
          have hdzT : inDeadZone (nodePos (treeDepth n) h (2 * idx + 1)) n = true :=
            dead_dz_true hn hh hidx hrc
          have hstep2 := stepBits_deadzone sha
            (nodePos (treeDepth n) h (2 * idx))
            (CalcHash sha leaves n h (2 * idx))
            (nodePos (treeDepth n) (h + 1) idx) none S
            (r ++ matchedUnder leaves matched n h (2 * idx))
            (nodePos (treeDepth n) h (2 * idx + 1)) (2 ^ treeDepth n) restH restB
            n root hdzT
          rw [checkLoopB_inr hstep2, hCH, matchedUnder_split,
            matchedUnder_of_dead leaves matched (no_right_dead hn hrc),
            List.append_nil]
    · -- no match below: a single flag bit and the subtree root hash
      have hsmf : subMatch matched n (h + 1) idx = false := by
        cases hv : subMatch matched n (h + 1) idx
        · rfl
        · exact absurd hv hsm
      have hT1 : (TraverseAndBuild sha leaves matched n (h + 1) idx).1 =
          [false] := by
        rw [TraverseAndBuild, if_neg (by rw [hsmf]; exact Bool.false_ne_true)]
      have hT2 : (TraverseAndBuild sha leaves matched n (h + 1) idx).2 =
          [CalcHash sha leaves n (h + 1) idx] := by
        rw [TraverseAndBuild, if_neg (by rw [hsmf]; exact Bool.false_ne_true)]
      have hmu : matchedUnder leaves matched n (h + 1) idx = [] :=
        matchedUnder_of_not_subMatch leaves matched hsmf
      have hstep := stepBits_fill sha S r (nodePos (treeDepth n) (h + 1) idx)
        (2 ^ treeDepth n) (CalcHash sha leaves n (h + 1) idx) restH restB n root
        hS hdzf hpm2
      refine ⟨if nodePos (treeDepth n) (h + 1) idx &&& 1 ≠ 0
        then nodePos (treeDepth n) (h + 1) idx >>> 1 ||| 2 ^ treeDepth n
        else nodePos (treeDepth n) (h + 1) idx ||| 1, ?_, ?_⟩
      · by_cases hpar : idx % 2 = 0
        · refine Or.inl ⟨hpar, ?_⟩
          rw [handP, if_neg (by omega),
            or_one_of_even (by rw [hParity]; exact hpar)]
        · have hpar1 : idx % 2 = 1 := by omega
          refine Or.inr ⟨hpar1, Or.inr ?_⟩
          rw [handP, if_pos (by omega), nodePos_parent hh hidx2]
      · rw [hT1, hT2, List.singleton_append, List.singleton_append,
          checkLoopB_inr hstep, hmu, List.append_nil]


/-! ### Bit packing round-trip -/

theorem byteVal_testBit : ∀ (bs : List Bool) (k : Nat),
    (byteVal bs).testBit k = bs.getD k false := by
  intro bs
  induction bs with
  | nil =>
    intro k
    show (0 : Nat).testBit k = false
    exact Nat.zero_testBit k
  | cons b tl ih =>
    intro k
    have hval : byteVal (b :: tl) = 2 * byteVal tl + (if b then 1 else 0) := rfl
    cases k with
    | zero =>
      rw [hval, Nat.testBit_zero]
      cases b <;> simp <;> omega
    | succ k =>
      rw [hval, Nat.testBit_succ]
      have hdiv : (2 * byteVal tl + (if b then 1 else 0)) / 2 = byteVal tl := by
        cases b <;> simp <;> omega
      rw [hdiv, ih k]
      rfl

theorem byteBits_byteVal {bs : List Bool} (hlen : bs.length ≤ 8) :
    byteBits (byteVal bs) = bs ++ List.replicate (8 - bs.length) false := by
  apply List.ext_getElem
  · rw [byteBits_length, List.length_append, List.length_replicate]
    omega
  · intro i h1 h2
    simp only [byteBits] at h1 ⊢
    rw [List.getElem_map, List.getElem_range, byteVal_testBit]
    by_cases hi : i < bs.length
    · rw [List.getElem_append_left hi, List.getD_eq_getElem bs false hi]
    · rw [List.getElem_append_right (by omega), List.getElem_replicate,
        List.getD_eq_default bs false (by omega)]

theorem allBits_packBitsF : ∀ (f : Nat) (bits : List Bool), bits.length ≤ f →
    ∃ m, allBits (packBitsF f bits) = bits ++ List.replicate m false := by
  intro f
  induction f with
  | zero =>
    intro bits h
    have hb : bits = [] := by
      cases bits with
      | nil => rfl
      | cons a l => simp at h
    subst hb
    exact ⟨0, rfl⟩
  | succ f ih =>
    intro bits h
    cases bits with
    | nil => exact ⟨0, rfl⟩
    | cons b tl =>
      have hstep : packBitsF (f + 1) (b :: tl) =
          byteVal ((b :: tl).take 8) :: packBitsF f ((b :: tl).drop 8) := by
        rw [packBitsF]
        exact fun hc => List.noConfusion hc
      by_cases h8 : (b :: tl).length ≤ 8
      · have hdrop : (b :: tl).drop 8 = [] := List.drop_eq_nil_of_le h8
        have htake : (b :: tl).take 8 = b :: tl := List.take_of_length_le h8
        refine ⟨8 - (b :: tl).length, ?_⟩
        rw [hstep, hdrop, htake]
        show byteBits (byteVal (b :: tl)) ++ allBits (packBitsF f []) = _
        have hpf : packBitsF f [] = [] := by
          cases f <;> rfl
        rw [hpf]
        show byteBits (byteVal (b :: tl)) ++ [] = _
        rw [List.append_nil, byteBits_byteVal h8]
      · have htake8 : ((b :: tl).take 8).length = 8 := by
          rw [List.length_take]
          simp only [Nat.min_def]
          split <;> omega
        obtain ⟨m, hm⟩ := ih ((b :: tl).drop 8) (by rw [List.length_drop]; omega)
        refine ⟨m, ?_⟩
        rw [hstep]
        show byteBits (byteVal ((b :: tl).take 8)) ++
          allBits (packBitsF f ((b :: tl).drop 8)) = _
        rw [hm, byteBits_byteVal (le_of_eq htake8), htake8]
        simp only [Nat.sub_self, List.replicate_zero, List.append_nil]
        rw [← List.append_assoc, List.take_append_drop]

theorem allBits_packBits (bits : List Bool) :
    ∃ m, allBits (packBits bits) = bits ++ List.replicate m false := by
  rw [packBits]
  exact allBits_packBitsF bits.length bits le_rfl

theorem packBits_ne_nil {bits : List Bool} (h : bits ≠ []) : packBits bits ≠ [] := by
  obtain ⟨b, tl, rfl⟩ := List.exists_cons_of_ne_nil h
  rw [packBits]
  show packBitsF (tl.length + 1) (b :: tl) ≠ []
  rw [packBitsF]
  · exact List.cons_ne_nil _ _
  · exact fun hc => List.noConfusion hc


theorem CalcTreeWidth_le {n : Nat} (h : Nat) (hn : 1 ≤ n) : CalcTreeWidth n h ≤ n := by
  rw [CalcTreeWidth_eq h hn]
  have := Nat.div_le_self (n - 1) (2 ^ h)
  omega

/-- **C1.** For every merkle tree over `n ∈ [1, 1024]` leaf txids (with no
colliding sibling hashes anywhere in the tree, as holds for a real hash
function) and every matched subset, building the partial merkle block —
tx count, depth-first hashes, LSB-first packed flag bits, and the header
root `CalcHash(treeDepth n, 0)` — and running `CheckMerkleBlock` on it
succeeds and returns exactly the matched txids in leaf order; in
particular the root recomputed by the verifier equals the header's merkle
root, that being the verifier's final test before it returns success. -/
theorem c1_partial_merkle_roundtrip {α : Type} [DecidableEq α] (sha : α → α → α)
    (leaves : Nat → α) (matched : Nat → Bool) (n : Nat) (hn : 1 ≤ n)
    (hn1024 : n ≤ 1024)
    (hnodup : ∀ h, h < treeDepth n → ∀ idx, idx < n →
      2 * idx + 1 < CalcTreeWidth n h →
      CalcHash sha leaves n h (2 * idx) ≠ CalcHash sha leaves n h (2 * idx + 1)) :
    CheckMerkleBlock sha (buildMerkleBlock sha leaves matched n) =
      .ok (matchedIds leaves matched n) := by
  have hd : n ≤ 2 ^ treeDepth n := le_two_pow_treeDepth n
  have hnodup2 : ∀ h idx, h < treeDepth n → 2 * idx + 1 < CalcTreeWidth n h →
      CalcHash sha leaves n h (2 * idx) ≠ CalcHash sha leaves n h (2 * idx + 1) := by
    intro h idx hlt hrc
    have hw := CalcTreeWidth_le h hn
    exact hnodup h hlt idx (by omega) hrc
  have hbne := traverse_bits_ne_nil sha leaves matched n (treeDepth n) 0
  have hfne := packBits_ne_nil hbne
  rw [CheckMerkleBlock]
  rw [if_neg (show ¬(buildMerkleBlock sha leaves matched n).Transactions = 0 from by
    show ¬n = 0
    omega)]
  rw [if_neg (show ¬(buildMerkleBlock sha leaves matched n).Flags.length = 0 from by
    show ¬(packBits (TraverseAndBuild sha leaves matched n (treeDepth n) 0).1).length
      = 0
    rw [List.length_eq_zero]
    exact hfne)]
  show checkLoop sha
    { s := []
      r := []
      pos := (nextPowerOfTwo n <<< 1) - 2
      msb := nextPowerOfTwo n
      hashes := (TraverseAndBuild sha leaves matched n (treeDepth n) 0).2
      flags := packBits (TraverseAndBuild sha leaves matched n (treeDepth n) 0).1
      i := 0
      transactions := n
      root := CalcHash sha leaves n (treeDepth n) 0 } = _
  rw [checkLoop_eq_checkLoopB sha
    { s := []
      r := []
      pos := (nextPowerOfTwo n <<< 1) - 2
      msb := nextPowerOfTwo n
      hashes := (TraverseAndBuild sha leaves matched n (treeDepth n) 0).2
      flags := packBits (TraverseAndBuild sha leaves matched n (treeDepth n) 0).1
      i := 0
      transactions := n
      root := CalcHash sha leaves n (treeDepth n) 0 }
    ⟨by show (0 : Nat) < 8; omega, fun _ => rfl⟩]
  show checkLoopB sha
    { s := []
      r := []
      pos := (nextPowerOfTwo n <<< 1) - 2
      msb := nextPowerOfTwo n
      hashes := (TraverseAndBuild sha leaves matched n (treeDepth n) 0).2
      bits := bitsOf
        (packBits (TraverseAndBuild sha leaves matched n (treeDepth n) 0).1) 0
      transactions := n
      root := CalcHash sha leaves n (treeDepth n) 0 } = _
  obtain ⟨m, hpk⟩ :=
    allBits_packBits (TraverseAndBuild sha leaves matched n (treeDepth n) 0).1
  rw [bitsOf_zero, hpk]
  have hpos : (nextPowerOfTwo n <<< 1) - 2 = nodePos (treeDepth n) (treeDepth n) 0 := by
    rw [nextPowerOfTwo_eq, shiftLeft_one, nodePos_root, pow_succ]
    omega
  rw [hpos, nextPowerOfTwo_eq]
  obtain ⟨pos2, hspec, heq⟩ := traverse_sim sha leaves matched n hn hnodup2
    (treeDepth n) 0 le_rfl (by rw [CalcTreeWidth_top hn hd]; omega)
    [] [] (List.replicate m false) [] (CalcHash sha leaves n (treeDepth n) 0)
    (Or.inl rfl)
  rw [List.append_nil] at heq
  rw [heq, List.nil_append, matchedUnder_top leaves matched hd]
  exact checkLoopB_inl (stepBits_root_ok sha (nodePos (treeDepth n) (treeDepth n) 0)
    (CalcHash sha leaves n (treeDepth n) 0) (matchedIds leaves matched n) pos2
    (2 ^ treeDepth n) [] (List.replicate m false) n)

theorem c1_witness :
    CheckMerkleBlock (fun a b => a * 1000003 + b)
        (buildMerkleBlock (fun a b => a * 1000003 + b) (fun i => i + 1)
          (fun i => decide (i = 1 ∨ i = 4 ∨ i = 6)) 7) =
      Except.ok (matchedIds (fun i => i + 1)
        (fun i => decide (i = 1 ∨ i = 4 ∨ i = 6)) 7) :=
  c1_partial_merkle_roundtrip (fun a b => a * 1000003 + b) (fun i => i + 1)
    (fun i => decide (i = 1 ∨ i = 4 ∨ i = 6)) 7 (by decide) (by decide) (by decide)

end SPV


